import Mathlib

/-!
The open-lambda worker: import cache manager and configuration defaults.

A shallow embedding of `worker/import-cache/cacheManager.go` and
`worker/config/config.go`.

* Go strings are lists of characters, Go maps are association lists read by key.
* `*ForkServer` pointers are addresses into an explicit heap (a list of objects;
  allocation appends), `nil` is `none`. An address outside the heap, which a Go
  pointer never is, is treated like `nil`.
* Calls that leave the process (sandbox factory, fork requests, the ready pipe,
  `cgclassify`, `os.Getwd`) are answered by an environment record.
* A nil dereference is the outcome `panic`, `log.Fatalf` is the outcome `fatal`.
-/

namespace OpenLambda

/-! ## Go values -/

/-- Go `string`: the sequence of its characters (UTF-8 text). -/
abbrev GoString := List Char

deriving instance DecidableEq for Except

/-- Go `int` on the 64-bit targets the worker runs on: `x` reduced into
`[-2^63, 2^63)` as two's complement arithmetic does. -/
def wrapInt (x : Int) : Int := (x + 2 ^ 63) % 2 ^ 64 - 2 ^ 63

/-- The largest Go `int`. -/
def maxInt : Int := 2 ^ 63 - 1

/-- The smallest Go `int`. -/
def minInt : Int := -(2 ^ 63)

/-- Go `map[string]V`: an association list, read by first match. -/
structure GoMap (V : Type) where
  entries : List (GoString × V)
deriving DecidableEq, Repr

namespace GoMap

variable {V : Type}

/-- The result of `make(map[string]V)`. -/
def empty : GoMap V := ⟨[]⟩

/-- Lookup with presence, `v, ok := m[k]`. -/
def get? (m : GoMap V) (k : GoString) : Option V :=
  match m.entries.find? (fun e => decide (e.1 = k)) with
  | some e => some e.2
  | none => none

/-- Replace the binding of `k` in an entry list, or add it at the end. -/
def setEntries (k : GoString) (v : V) : List (GoString × V) → List (GoString × V)
  | [] => [(k, v)]
  | e :: es => if e.1 = k then (k, v) :: es else e :: setEntries k v es

/-- The assignment `m[k] = v`. -/
def set (m : GoMap V) (k : GoString) (v : V) : GoMap V := ⟨setEntries k v m.entries⟩

/-- The expression `m[k]`: the stored value, or the zero value of `V` when `k` is absent. -/
def index [Inhabited V] (m : GoMap V) (k : GoString) : V := (m.get? k).getD default

end GoMap

/-- The Go idiom for a `map[string]bool` used as a set: `p` is a member when `m[p]` is true. -/
def hasPkg (m : GoMap Bool) (p : GoString) : Prop := m.index p = true

instance (m : GoMap Bool) (p : GoString) : Decidable (hasPkg m p) := by
  unfold hasPkg; infer_instance

/-- The function `unicode.ToLower`: ASCII letters are handled inline, every other rune goes
through the Unicode case tables, which are the argument `tab`. -/
def unicodeToLower (tab : Char → Char) (r : Char) : Char :=
  if r.toNat ≤ 0x7F then
    if 'A'.toNat ≤ r.toNat ∧ r.toNat ≤ 'Z'.toNat then Char.ofNat (r.toNat + ('a'.toNat - 'A'.toNat)) else r
  else tab r

/-- The function `strings.ToLower`: every rune of `s` mapped through `unicode.ToLower`. -/
def ToLower (tab : Char → Char) (s : GoString) : GoString := s.map (unicodeToLower tab)

/-! ## Data model -/

/-- The observable part of an `sb.ContainerSandbox`: the values of `NSPid()`, `RootDir()` and
`HostDir()`. -/
structure ContainerSandbox where
  NSPid : GoString
  RootDir : GoString
  HostDir : GoString
deriving DecidableEq, Repr

/-- A `*ForkServer`: the address of a fork server object in the heap. -/
abbrev Ptr := Nat

/-- Modelled from the spec: the `ForkServer` struct is declared outside the files at hand. The
fields are the ones `cacheManager.go` reads and writes (`Sandbox`, `Pid`, `SockPath`, `Packages`,
`Hits`, `Parent`, `Children`, `Mutex`, `Size`) and the `Dead` flag of the spec's data model.
`Mutex` records whether the node's `*sync.Mutex` is held. `Hits` and `Size` are `float64` in the
source; they only ever hold the integers written here. -/
structure ForkServer where
  Sandbox : Option ContainerSandbox
  Pid : GoString
  SockPath : GoString
  Packages : GoMap Bool
  Hits : Int
  Parent : Option Ptr
  Children : Int
  Mutex : Bool
  Size : Int
  Dead : Bool
deriving DecidableEq, Repr

/-- The fields of `CacheManager` that `Provision` reads and writes. `mutex` records whether the
forest mutex is held; `factory` and `matcher` are answered by the environment. The values of
`sizes` are `float64` in the source; they are written as the values of those floats, which are
the integers `readPkgSizes` stores. -/
structure CacheManager where
  servers : List Ptr
  seq : Int
  mutex : Bool
  sizes : GoMap Int
deriving DecidableEq, Repr

/-- What a call does that another goroutine, a sandbox or an interpreter can observe, in order. -/
inductive Event where
  | lockForest
  | unlockForest
  | lockNode (p : Ptr)
  | unlockNode (p : Ptr)
  | hit (p : Ptr)
  | kill (p : Ptr)
  | factoryCreate
  | forkRequest (sock : GoString) (launchLambda : Bool)
  | readyWait
  | cgroupEnter
deriving DecidableEq, Repr

/-- The program state: the heap of fork server objects, the cache manager, and the events so far
(oldest first). -/
structure World where
  heap : List ForkServer
  cm : CacheManager
  trace : List Event
deriving DecidableEq, Repr

/-- Write `f` applied to the object at `p` back to the heap. -/
def World.update (w : World) (p : Ptr) (f : ForkServer → ForkServer) : World :=
  match w.heap[p]? with
  | some o => { w with heap := w.heap.set p (f o) }
  | none => w

/-- Append an event to the trace. -/
def World.emit (w : World) (e : Event) : World := { w with trace := w.trace ++ [e] }

/-! ## newCacheEntry: the structural step -/

/-- Lines 118-120 of `cacheManager.go`: the loop `for key, val := range fs.Packages` with body
`pkgs[key] = val`, starting from the empty map. The range visits every entry once, in an order Go
leaves open. -/
def copyPackages (src : GoMap Bool) : GoMap Bool :=
  src.entries.foldr (fun e acc => acc.set e.1 e.2) GoMap.empty

/-- Lines 121-124: the loop over `toCache`, carrying `pkgs` and the local `size`. -/
def cacheLoop (tab : Char → Char) (sizes : GoMap Int) :
    List GoString → GoMap Bool × Int → GoMap Bool × Int
  | [], acc => acc
  | p :: rest, (pkgs, size) =>
    cacheLoop tab sizes rest (pkgs.set p true, size + sizes.index (ToLower tab p))

/-- The composite literal of lines 126-132, `&ForkServer` with `Packages`, `Hits`, `Parent`,
`Children` and a new unlocked `Mutex`. The fields the literal does not name (`Sandbox`, `Pid`,
`SockPath`, `Size`, `Dead`) have their zero values. -/
def freshNode (pkgs : GoMap Bool) (fs : Ptr) : ForkServer :=
  { Sandbox := none, Pid := [], SockPath := [], Packages := pkgs, Hits := 0,
    Parent := some fs, Children := 0, Mutex := false, Size := 0, Dead := false }

/-- Lines 115-137 of `newCacheEntry`: build the package set of the new entry, allocate the new
`ForkServer`, count it in the parent, append it to `cm.servers`, advance `cm.seq`. The result is
the new state, the address of `newFs` and the final value of the local `size`; `none` is the nil
dereference at `fs.Packages`. -/
def newCacheEntryStruct (tab : Char → Char) (w : World) (fs : Option Ptr) (toCache : List GoString) :
    Option (World × Ptr × Int) :=
  match fs with
  | none => none
  | some p =>
    match w.heap[p]? with
    | none => none
    | some parent =>
      let acc := cacheLoop tab w.cm.sizes toCache (copyPackages parent.Packages, 0)
      let pkgs := acc.1
      let size := acc.2
      let newFs := freshNode pkgs p
      let addr := w.heap.length
      let heap1 := w.heap ++ [newFs]
      let heap2 := heap1.set p { parent with Children := wrapInt (parent.Children + 1) }
      some ({ w with heap := heap2,
                     cm := { w.cm with servers := w.cm.servers ++ [addr],
                                       seq := wrapInt (w.cm.seq + 1) } }, addr, size)

/-! ## ForkServer methods and the environment -/

/-- Modelled from the spec: `ForkServer.Kill` is defined outside the files at hand. Section 4.A:
it sets `Dead`, releases the sandbox handle and unlinks the socket, and is idempotent. It does not
touch `Children`, `Packages`, `Parent` or the lock. -/
def ForkServer.Kill (fs : ForkServer) : ForkServer := { fs with Dead := true, Sandbox := none }

/-- Modelled from the spec: `ForkServer.Hit` is defined outside the files at hand. Section 4.A:
an increment of the hit counter. -/
def ForkServer.Hit (fs : ForkServer) : ForkServer := { fs with Hits := fs.Hits + 1 }

/-- How the wait at lines 188-194 of `cacheManager.go` ends: the reader goroutine has read five
bytes from the pipe, which it does not compare with anything, and sends on `ready`; the 20 s
timer fires first; or the reader goroutine ends the process with `log.Fatalf`. -/
inductive ReadyWait where
  | ready
  | timeout
  | fatalf
deriving DecidableEq, Repr

/-- Everything `Provision` consumes from outside `cacheManager.go`: the Unicode case tables, the
matcher (`cm.matcher.Match`, given the objects the server list points to), the cache sandbox
factory (`cm.factory.Create`), `forkRequest` (socket path, namespace pid, root directory, packages,
launch flag), the wait for the ready pipe, and `sandbox.CGroupEnter`. -/
structure Env where
  lowerTab : Char → Char
  Match : List ForkServer → List Ptr → List GoString → Option Ptr × List GoString × Bool
  Create : Except String ContainerSandbox
  forkRequest : GoString → GoString → GoString → List GoString → Bool → Except String GoString
  readyWait : ContainerSandbox → ReadyWait
  CGroupEnter : ContainerSandbox → GoString → Option String

/-- How a call ends: it returns, it panics on a nil dereference, or the process is ended by
`log.Fatalf`. -/
inductive Outcome (α : Type) where
  | ret (a : α)
  | panic
  | fatal
deriving DecidableEq, Repr

/-- The result triple `(fs, hit, err)` of `Provision`. -/
structure ProvisionRet where
  fs : Option Ptr
  hit : Bool
  err : Option String
deriving DecidableEq, Repr

/-- The call `cm.mutex.Lock()`. -/
def lockForest (w : World) : World :=
  ({ w with cm := { w.cm with mutex := true } } : World).emit Event.lockForest

/-- The call `cm.mutex.Unlock()`. -/
def unlockForest (w : World) : World :=
  ({ w with cm := { w.cm with mutex := false } } : World).emit Event.unlockForest

/-- The call `fs.Mutex.Lock()`; `none` is the nil dereference at `fs.Mutex`. -/
def lockNode (w : World) (fs : Option Ptr) : Option World :=
  match fs with
  | none => none
  | some p =>
    match w.heap[p]? with
    | none => none
    | some _ => some ((w.update p (fun o => { o with Mutex := true })).emit (Event.lockNode p))

/-- The call `fs.Mutex.Unlock()`; `none` is the nil dereference at `fs.Mutex`. -/
def unlockNode (w : World) (fs : Option Ptr) : Option World :=
  match fs with
  | none => none
  | some p =>
    match w.heap[p]? with
    | none => none
    | some _ => some ((w.update p (fun o => { o with Mutex := false })).emit (Event.unlockNode p))

/-- The call `newFs.Kill()`. -/
def killNode (w : World) (p : Ptr) : World :=
  (w.update p ForkServer.Kill).emit (Event.kill p)

/-! ## newCacheEntry and Provision -/

/-- The function `CacheManager.newCacheEntry` (lines 114-201). The result pair is
`(*ForkServer, error)`. -/
def newCacheEntry (env : Env) (w : World) (fs : Option Ptr) (toCache : List GoString) :
    World × Outcome (Option Ptr × Option String) :=
  -- lines 115-137
  match newCacheEntryStruct env.lowerTab w fs toCache with
  | none => (w, Outcome.panic)
  | some (w1, newFs, _) =>
    -- line 139: newFs.Mutex.Lock()
    match lockNode w1 (some newFs) with
    | none => (w1, Outcome.panic)
    | some w2 =>
      -- line 140: cm.mutex.Unlock()
      let w3 := unlockForest w2
      -- line 143: cm.factory.Create
      let w4 := w3.emit Event.factoryCreate
      match env.Create with
      | Except.error err =>
        -- lines 145-146
        (killNode w4 newFs, Outcome.ret (none, some err))
      | Except.ok sandbox =>
        -- line 150: forkRequest(fs.SockPath, ..., toCache, false)
        match fs.bind (fun p => w4.heap[p]?) with
        | none => (w4, Outcome.panic)
        | some parent =>
          let w5 := w4.emit (Event.forkRequest parent.SockPath false)
          match env.forkRequest parent.SockPath sandbox.NSPid sandbox.RootDir toCache false with
          | Except.error err =>
            -- lines 152-154
            match unlockNode w5 (some newFs) with
            | none => (w5, Outcome.panic)
            | some w6 => (killNode w6 newFs, Outcome.ret (none, some err))
          | Except.ok pid =>
            -- line 157
            let sockPath := sandbox.HostDir ++ "/fs.sock".toList
            -- lines 160-194
            let w6 := w5.emit Event.readyWait
            match env.readyWait sandbox with
            | ReadyWait.fatalf => (w6, Outcome.fatal)
            | ReadyWait.timeout =>
              -- line 193
              (w6, Outcome.ret (none, some "handler server failed to initialize after 20s"))
            | ReadyWait.ready =>
              -- lines 196-200
              (w6.update newFs (fun o =>
                  { o with Sandbox := some sandbox, Pid := pid, SockPath := sockPath }),
                Outcome.ret (some newFs, none))

/-- Lines 95-111 of `Provision`: the deferred unlock of `fs.Mutex` (run on every return below),
the hit, the fork request that launches the lambda, and the cgroup move. -/
def provisionServe (env : Env) (w : World) (fs : Option Ptr) (hit : Bool)
    (sandbox : ContainerSandbox) : World × Outcome ProvisionRet :=
  -- line 95: the operand fs.Mutex of the defer is evaluated here
  match fs.bind (fun p => w.heap[p]?) with
  | none => (w, Outcome.panic)
  | some o =>
    -- line 98
    let w1 := match fs with
      | some p => (w.update p ForkServer.Hit).emit (Event.hit p)
      | none => w
    -- line 101
    let w2 := w1.emit (Event.forkRequest o.SockPath true)
    match env.forkRequest o.SockPath sandbox.NSPid sandbox.RootDir [] true with
    | Except.error err =>
      -- line 103
      ((unlockNode w2 fs).getD w2, Outcome.ret ⟨none, false, some err⟩)
    | Except.ok pid =>
      -- line 107
      let w3 := w2.emit Event.cgroupEnter
      match env.CGroupEnter sandbox pid with
      | some err => ((unlockNode w3 fs).getD w3, Outcome.ret ⟨none, false, some err⟩)
      | none =>
        -- line 111
        ((unlockNode w3 fs).getD w3, Outcome.ret ⟨fs, hit, none⟩)

/-- The function `CacheManager.Provision` (lines 74-112). -/
def Provision (env : Env) (w : World) (sandbox : ContainerSandbox) (_dir : GoString)
    (pkgs : List GoString) : World × Outcome ProvisionRet :=
  -- line 75
  let w1 := lockForest w
  -- line 77
  let m := env.Match w1.heap w1.cm.servers pkgs
  let fs := m.1
  let toCache := m.2.1
  let hit := m.2.2
  -- line 80
  if toCache.length ≠ 0 then
    -- line 81
    match newCacheEntry env w1 fs toCache with
    | (w2, Outcome.panic) => (w2, Outcome.panic)
    | (w2, Outcome.fatal) => (w2, Outcome.fatal)
    | (w2, Outcome.ret (_, some err)) =>
      -- line 83
      (w2, Outcome.ret ⟨none, false, some err⟩)
    | (w2, Outcome.ret (newFs, none)) => provisionServe env w2 newFs hit sandbox
  else
    -- line 87: fs.Mutex.Lock()
    match lockNode w1 fs with
    | none => (w1, Outcome.panic)
    | some w2 =>
      -- line 88
      let w3 := unlockForest w2
      -- line 89
      if fs = none then
        -- line 90
        match unlockNode w3 fs with
        | none => (w3, Outcome.panic)
        | some w4 =>
          -- line 91: err has not been assigned, it is nil
          (w4, Outcome.ret ⟨none, false, none⟩)
      else provisionServe env w3 fs hit sandbox

/-- The root fork server built by `initCacheRoot` (lines 220-230). -/
def rootServer (rootSB : ContainerSandbox) (rootDir : GoString) : ForkServer :=
  { Sandbox := some rootSB, Pid := "-1".toList, SockPath := rootDir ++ "/fs.sock".toList,
    Packages := GoMap.empty, Hits := 0, Parent := none, Children := 0, Mutex := false,
    Size := 1, Dead := false }

/-- The state `InitCacheManager` leaves behind when it succeeds (lines 37-52 and 220-232): the
root is the only fork server. -/
def initWorld (sizes : GoMap Int) (rootSB : ContainerSandbox) (rootDir : GoString) : World :=
  { heap := [rootServer rootSB rootDir],
    cm := { servers := [0], seq := 0, mutex := false, sizes := sizes },
    trace := [] }

/-! ## readPkgSizes -/

/-- The function `strings.Split(s, sep)` for a one-byte separator: the fields between the
occurrences of `sep`, one more than there are occurrences. -/
def Split (s : GoString) (sep : Char) : List GoString :=
  match s with
  | [] => [[]]
  | c :: cs =>
    if c = sep then [] :: Split cs sep
    else
      match Split cs sep with
      | [] => [[c]]
      | f :: fs => (c :: f) :: fs

/-- The two errors of `strconv`: `ErrSyntax` and `ErrRange`. -/
inductive AtoiError where
  | malformed
  | range
deriving DecidableEq, Repr

/-- Whether `c` is one of the bytes `0` to `9`. -/
def isDecimalDigit (c : Char) : Prop := '0'.toNat ≤ c.toNat ∧ c.toNat ≤ '9'.toNat

instance (c : Char) : Decidable (isDecimalDigit c) := by
  unfold isDecimalDigit; infer_instance

/-- The digit loop of `strconv.ParseUint(s, 10, 64)`: a byte that is not a decimal digit is a
syntax error, a value that leaves `uint64` is a range error, whichever comes first. -/
def parseUint : List Char → Nat → Except AtoiError Nat
  | [], n => Except.ok n
  | c :: cs, n =>
    if isDecimalDigit c then
      if n * 10 + (c.toNat - '0'.toNat) ≥ 2 ^ 64 then Except.error AtoiError.range
      else parseUint cs (n * 10 + (c.toNat - '0'.toNat))
    else Except.error AtoiError.malformed

/-- The function `strconv.Atoi` on a 64-bit target, which is `ParseInt(s, 10, 0)`: an optional
sign, at least one decimal digit, nothing else, and a value within `int`. The short-input fast
path of `Atoi` computes the same result. -/
def Atoi (s : GoString) : Except AtoiError Int :=
  match s with
  | [] => Except.error AtoiError.malformed
  | c :: cs =>
    let neg : Bool := decide (c = '-')
    let body := if c = '-' ∨ c = '+' then cs else c :: cs
    if body = [] then Except.error AtoiError.malformed
    else
      match parseUint body 0 with
      | Except.error e => Except.error e
      | Except.ok un =>
        if neg = false ∧ un ≥ 2 ^ 63 then Except.error AtoiError.range
        else if neg = true ∧ un > 2 ^ 63 then Except.error AtoiError.range
        else Except.ok (if neg then -(un : Int) else (un : Int))

/-- The constant `bufio.MaxScanTokenSize`: the size the scanner's buffer grows to at most. -/
def MaxScanTokenSize : Nat := 64 * 1024

/-- The number of bytes of a string: the sum of the UTF-8 sizes of its characters. -/
def byteLen (s : GoString) : Nat := (s.map Char.utf8Size).sum

/-- The helper `dropCR` of `bufio`: one carriage return at the end of the data is dropped. -/
def dropCR (data : GoString) : GoString :=
  if data.getLast? = some '\r' then data.dropLast else data

/-- The tokens a `bufio.Scanner` with its default split function `ScanLines` and its default
buffer delivers on input that reads without error. `data` is the input still to read, `line` the
part of the current line read so far. A newline ends the line, which is delivered without a
carriage return at its end; at the end of the input a non-empty rest is delivered as the last
line. A line of `MaxScanTokenSize` bytes or more fills the buffer before its newline is seen: the
scanner records `ErrTooLong`, `Scan` returns false, and nothing more is delivered. -/
def scanLinesFrom : GoString → GoString → List GoString
  | [], line =>
    if line = [] then []
    else if byteLen line ≥ MaxScanTokenSize then []
    else [dropCR line]
  | c :: rest, line =>
    if c = '\n' then
      if byteLen line ≥ MaxScanTokenSize then []
      else dropCR line :: scanLinesFrom rest []
    else scanLinesFrom rest (line ++ [c])

/-- The tokens the scanner of line 250 delivers for a file with the given content. -/
def scanLines (content : GoString) : List GoString := scanLinesFrom content []

/-- The conversion `float64(n)` of a Go `int`, written as the value of the resulting float,
which is an integer: a number of at most 53 bits is exact, a longer one is rounded to 53
significant bits, ties to even. -/
def float64OfInt (n : Int) : Int :=
  let a := n.natAbs
  if a < 2 ^ 53 then n
  else
    let shift := ((List.range 11).filter (fun k => decide (2 ^ (54 + k) ≤ a))).length + 1
    let q := a / 2 ^ shift
    let r := a % 2 ^ shift
    let half := 2 ^ (shift - 1)
    let q1 := if r > half ∨ (r = half ∧ q % 2 = 1) then q + 1 else q
    if n < 0 then -((q1 * 2 ^ shift : Nat) : Int) else ((q1 * 2 ^ shift : Nat) : Int)

/-- One successful `scanner.Scan()`: the token `scanner.Text()` (a line without its end-of-line
marker) and the value of `scanner.Err()` at that point, which is nil while the file reads well. -/
structure ScanStep where
  Text : GoString
  Err : Option String
deriving DecidableEq, Repr

/-- The errors `readPkgSizes` returns: the scanner's, `malformed package size file`, or the one
of `strconv.Atoi` together with its input. -/
inductive SizesError where
  | scanner (msg : String)
  | malformedFile
  | atoi (e : AtoiError) (input : GoString)
deriving DecidableEq, Repr

/-- Lines 251-266 of `cacheManager.go`: the loop over the scanner's tokens. -/
def readPkgSizesLoop (tab : Char → Char) :
    List ScanStep → GoMap Int → Except SizesError (GoMap Int)
  | [], sizes => Except.ok sizes
  | t :: rest, sizes =>
    -- lines 252-254
    match t.Err with
    | some msg => Except.error (SizesError.scanner msg)
    | none =>
      -- line 256
      let split := Split t.Text ':'
      -- lines 257-259
      if split.length ≠ 2 then Except.error SizesError.malformedFile
      else
        -- lines 261-264
        match Atoi (split.getD 1 []) with
        | Except.error e => Except.error (SizesError.atoi e (split.getD 1 []))
        | Except.ok size =>
          -- line 265: the key is split[1], the value is float64(size)
          readPkgSizesLoop tab rest
            (sizes.set (ToLower tab (split.getD 1 [])) (float64OfInt size))

/-- The function `readPkgSizes` (lines 241-269). The file is `none` when `os.Open` fails, and
otherwise the sequence of successful `Scan` calls. When `Scan` returns false the loop ends and
line 268 returns the table with a nil error, whatever made the scanner stop. The values of the
table are the values of the stored floats. -/
def readPkgSizes (tab : Char → Char) (file : Option (List ScanStep)) :
    Except SizesError (GoMap Int) :=
  match file with
  | none => Except.ok GoMap.empty
  | some steps => readPkgSizesLoop tab steps GoMap.empty

/-- A file that `os.Open` opens and that reads without error, with the given content: the
successful `Scan` calls are the tokens of `scanLines`, each with a nil `scanner.Err()`. -/
def readable (content : GoString) : Option (List ScanStep) :=
  some ((scanLines content).map (fun l => { Text := l, Err := none }))

/-- The lines of a file: the pieces between its newlines, where a newline at the very end does
not begin another line. -/
def fileLines (content : GoString) : List GoString :=
  let fields := Split content '\n'
  if fields.getLast? = some [] then fields.dropLast else fields

/-- The lines of a file that reach `readPkgSizes`: the lines before the first line of
`MaxScanTokenSize` bytes or more, each without a carriage return at its end. -/
def deliveredLines (content : GoString) : List GoString :=
  ((fileLines content).takeWhile (fun l => decide (byteLen l < MaxScanTokenSize))).map dropCR

/-- The tokens of a list of newline-separated pieces, the first of which may be over-long. -/
def tokensOf : List GoString → List GoString
  | [] => []
  | [f] =>
    if f = [] then []
    else if byteLen f ≥ MaxScanTokenSize then []
    else [dropCR f]
  | f :: g :: fs =>
    if byteLen f ≥ MaxScanTokenSize then [] else dropCR f :: tokensOf (g :: fs)

/-- An example size file: a good line, then a line of 65536 letters, then a malformed line. -/
def exLongFile : GoString :=
  "numpy:100".toList ++ '\n' :: (List.replicate 65536 'x' ++ '\n' :: "bad".toList)

/-- The value of a string of decimal digits. -/
def decimalValue (digits : List Char) : Nat :=
  digits.foldl (fun n c => n * 10 + (c.toNat - '0'.toNat)) 0

/-- An optionally signed decimal integer that fits in a Go `int`. -/
def IsGoInt (num : GoString) : Prop :=
  ∃ digits, digits ≠ [] ∧ (∀ c, c ∈ digits → isDecimalDigit c) ∧
    ((num = digits ∧ (decimalValue digits : Int) ≤ maxInt) ∨
     (num = '+' :: digits ∧ (decimalValue digits : Int) ≤ maxInt) ∨
     (num = '-' :: digits ∧ minInt ≤ -(decimalValue digits : Int)))

/-- The lines `readPkgSizes` accepts: a name without a colon (possibly empty), one colon, and an
optionally signed decimal integer that fits in `int`. -/
def AcceptedLine (line : GoString) : Prop :=
  ∃ name num, line = name ++ ':' :: num ∧ ':' ∉ name ∧ IsGoInt num

/-- The line form of the size file as the spec words it: `name:integer` with a non-negative
integer, that is one colon followed by decimal digits only. -/
def specLineForm (line : GoString) : Bool :=
  match Split line ':' with
  | [_, num] => decide (num ≠ []) && num.all (fun c => decide (isDecimalDigit c))
  | _ => false

/-! ## Paths: the functions of `path` and `path/filepath` that `Defaults` calls -/

/-- The function `path.IsAbs`: the path begins with a slash. -/
def IsAbs (path : GoString) : Prop := path.head? = some '/'

instance (path : GoString) : Decidable (IsAbs path) := by
  unfold IsAbs; infer_instance

/-- The inner loop of `Clean` on a `..` element: drop bytes from the end of the output until
the byte dropped last is a slash or only `dotdot` bytes are left. `out` is the output written so
far, last byte first; `c` is the byte dropped last. -/
def cleanBacktrack (dotdot : Nat) : Char → List Char → List Char
  | _, [] => []
  | c, d :: rest =>
    if (d :: rest).length > dotdot ∧ c ≠ '/' then cleanBacktrack dotdot d rest else d :: rest

/-- The main loop of `path.Clean`. `path` is the input still to read, `out` the output written
so far (last byte first) and `dotdot` the length of the output that `..` may not remove. Every
round reads at least one byte, so a fuel of the input's length lets the loop finish. -/
def cleanLoop (rooted : Bool) : Nat → List Char → Nat → List Char → List Char
  | 0, _, _, out => out
  | fuel + 1, path, dotdot, out =>
    match path with
    | [] => out
    | c :: t =>
      if c = '/' then
        -- empty path element
        cleanLoop rooted fuel t dotdot out
      else if c = '.' ∧ (t = [] ∨ t.head? = some '/') then
        -- . element
        cleanLoop rooted fuel t dotdot out
      else if c = '.' ∧ t.head? = some '.' ∧ (t.tail = [] ∨ t.tail.head? = some '/') then
        -- .. element: remove to last slash
        if out.length > dotdot then
          match out with
          | [] => cleanLoop rooted fuel t.tail dotdot out
          | c0 :: o => cleanLoop rooted fuel t.tail dotdot (cleanBacktrack dotdot c0 o)
        else if rooted = false then
          let out1 := if out.length > 0 then '/' :: out else out
          let out2 := '.' :: '.' :: out1
          cleanLoop rooted fuel t.tail out2.length out2
        else cleanLoop rooted fuel t.tail dotdot out
      else
        -- real path element: add slash if needed, copy element
        let out1 :=
          if (rooted = true ∧ out.length ≠ 1) ∨ (rooted = false ∧ out.length ≠ 0) then '/' :: out
          else out
        let elem := (c :: t).takeWhile (fun x => decide (x ≠ '/'))
        cleanLoop rooted fuel ((c :: t).dropWhile (fun x => decide (x ≠ '/'))) dotdot
          (elem.reverse ++ out1)

/-- The function `path.Clean` (and `filepath.Clean` on Unix). -/
def Clean (path : GoString) : GoString :=
  if path = [] then ['.']
  else
    let rooted : Bool := decide (path.head? = some '/')
    let out :=
      if rooted then cleanLoop true path.length path.tail 1 ['/']
      else cleanLoop false path.length path 0 []
    if out.length = 0 then ['.'] else out.reverse

/-- The function `path.Join` (and `filepath.Join` on Unix): the elements from the first
non-empty one on, separated by slashes, cleaned; the empty string if there is none. -/
def Join (elem : List GoString) : GoString :=
  match elem.dropWhile (fun e => decide (e = [])) with
  | [] => []
  | es => Clean (List.intercalate ['/'] es)

/-- The function `path.Dir`: everything up to and including the last slash, cleaned. -/
def Dir (path : GoString) : GoString :=
  Clean ((path.reverse.dropWhile (fun x => decide (x ≠ '/'))).reverse)

/-- What `filepath.Abs` takes from the operating system: the result of `os.Getwd`. -/
structure PathEnv where
  Getwd : Except String GoString

/-- The function `filepath.Abs` on Unix. -/
def Abs (env : PathEnv) (path : GoString) : Except String GoString :=
  if IsAbs path then Except.ok (Clean path)
  else
    match env.Getwd with
    | Except.error e => Except.error e
    | Except.ok wd => Except.ok (Join [wd, path])

/-! ## Config.Defaults -/

/-- The struct `Config` of `config.go`. `Sandbox_config` (an `interface`) is kept as its JSON
text. -/
structure Config where
  path : GoString
  Registry : GoString
  Sandbox : GoString
  Reg_dir : GoString
  Cluster_name : GoString
  Index_host : GoString
  Index_port : GoString
  Pkgs_dir : GoString
  Max_runners : Int
  Handler_cache_size : Int
  Import_cache_size : Int
  Import_cache_buffer : Int
  Import_cache_buffer_threads : Int
  Import_cache_dir : GoString
  Reg_cluster : List GoString
  Worker_dir : GoString
  OLContainer_init_path : GoString
  OLContainer_handler_base : GoString
  OLContainer_cache_base : GoString
  Worker_port : GoString
  Sandbox_buffer : Int
  Sandbox_buffer_threads : Int
  Cg_pool_size : Int
  Skip_pull_existing : Bool
  Sandbox_config : Option GoString
  Benchmark_file : GoString
  Timing : Bool
deriving DecidableEq, Repr

/-- The block `Defaults` repeats for each path option `X` (for instance lines 129-142 for
`Reg_dir`): an empty `X` is an error; a relative `X` is an error when `c.path` is empty and is
otherwise replaced by `filepath.Abs(path.Join(path.Dir(c.path), X))`. The result is the new
value of `c` and the error returned, if any. -/
def checkPath (env : PathEnv) (get : Config → GoString) (set : Config → GoString → Config)
    (missing : String) (name : String) (c : Config) : Config × Option String :=
  if get c = [] then (c, some missing)
  else if ¬ IsAbs (get c) then
    if c.path = [] then
      (c, some (name ++ " cannot be relative, unless config is loaded from file"))
    else
      match Abs env (Join [Dir c.path, get c]) with
      | Except.error e => (c, some e)
      | Except.ok p => (set c p, none)
  else (c, none)

/-- Sequencing: the next block runs unless the previous one returned an error. -/
def andThen (r : Config × Option String) (k : Config → Config × Option String) :
    Config × Option String :=
  match r.2 with
  | some _ => r
  | none => k r.1

/-- Lines 117-119: the default of `Cluster_name`. -/
def defaultClusterName (c : Config) : Config :=
  if c.Cluster_name = [] then { c with Cluster_name := "default".toList } else c

/-- Lines 121-123: the default of `Worker_port`. -/
def defaultWorkerPort (c : Config) : Config :=
  if c.Worker_port = [] then { c with Worker_port := "8080".toList } else c

/-- Lines 117-127: the defaults of `Cluster_name` and `Worker_port` and the `reg_cluster`
check. -/
def defaultsBasics (c : Config) : Config × Option String :=
  let c2 := defaultWorkerPort (defaultClusterName c)
  if c2.Registry = "olregistry".toList ∧ c2.Reg_cluster.length = 0 then
    (c2, some "must specify reg_cluster")
  else (c2, none)

/-- Lines 129-142. -/
def defaultsRegDir (env : PathEnv) : Config → Config × Option String :=
  checkPath env (fun c => c.Reg_dir) (fun c v => { c with Reg_dir := v })
    "must specify local registry directory" "Reg_dir"

/-- Lines 145-158. -/
def defaultsWorkerDir (env : PathEnv) : Config → Config × Option String :=
  checkPath env (fun c => c.Worker_dir) (fun c v => { c with Worker_dir := v })
    "must specify local worker directory" "Worker_dir"

/-- Lines 160-173. -/
def defaultsPkgsDir (env : PathEnv) : Config → Config × Option String :=
  checkPath env (fun c => c.Pkgs_dir) (fun c v => { c with Pkgs_dir := v })
    "must specify packages directory" "Pkgs_dir"

/-- Lines 178-191. -/
def defaultsInitPath (env : PathEnv) : Config → Config × Option String :=
  checkPath env (fun c => c.OLContainer_init_path)
    (fun c v => { c with OLContainer_init_path := v })
    "must specify OLContainer_init_path" "OLContainer_init_path"

/-- Lines 194-207. -/
def defaultsHandlerBase (env : PathEnv) : Config → Config × Option String :=
  checkPath env (fun c => c.OLContainer_handler_base)
    (fun c v => { c with OLContainer_handler_base := v })
    "must specify olcontainer_handler_base" "olcontainer_handler_base"

/-- Lines 209-224: the cache base, looked at only when `Import_cache_size` is not zero. -/
def defaultsCacheBase (env : PathEnv) (c : Config) : Config × Option String :=
  if c.Import_cache_size ≠ 0 then
    checkPath env (fun c => c.OLContainer_cache_base)
      (fun c v => { c with OLContainer_cache_base := v })
      "must specify olcontainer_cache_base if using import cache" "olcontainer_cache_base" c
  else (c, none)

/-- Lines 176-225: the settings of olcontainer sandboxes. -/
def defaultsOlcontainer (env : PathEnv) (c : Config) : Config × Option String :=
  if c.Sandbox = "olcontainer".toList then
    andThen (andThen (defaultsInitPath env c) (defaultsHandlerBase env)) (defaultsCacheBase env)
  else (c, none)

/-- Lines 228-243: the import cache directory. -/
def defaultsImportCache (env : PathEnv) (c : Config) : Config × Option String :=
  if c.Import_cache_size ≠ 0 then
    checkPath env (fun c => c.Import_cache_dir) (fun c v => { c with Import_cache_dir := v })
      "must specify import_cache_dir if using import cache" "Import_cache_dir" c
  else (c, none)

/-- The method `Config.Defaults` (lines 116-248), without its last assignment: the value of `c`
when it returns and the error returned, if any. -/
def defaultsChecks (env : PathEnv) (c : Config) : Config × Option String :=
  andThen (andThen (andThen (andThen (andThen (defaultsBasics c) (defaultsRegDir env))
    (defaultsWorkerDir env)) (defaultsPkgsDir env)) (defaultsOlcontainer env))
    (defaultsImportCache env)

/-- What `Defaults` leaves behind: `c`, the package variable `Timing`, and the error. -/
structure DefaultsResult where
  c : Config
  Timing : Bool
  err : Option String
deriving DecidableEq, Repr

/-- The method `Config.Defaults` (lines 116-248). `timing` is the value of the package variable
`Timing` before the call; line 245 overwrites it when no check has failed. -/
def Defaults (env : PathEnv) (c : Config) (timing : Bool) : DefaultsResult :=
  match defaultsChecks env c with
  | (c1, some e) => { c := c1, Timing := timing, err := some e }
  | (c1, none) => { c := c1, Timing := c1.Timing, err := none }

/-- The seven path options of `Config` that `Defaults` looks at. -/
inductive PathOpt where
  | Reg_dir
  | Worker_dir
  | Pkgs_dir
  | OLContainer_init_path
  | OLContainer_handler_base
  | OLContainer_cache_base
  | Import_cache_dir
deriving DecidableEq, Repr

/-- The value of a path option in a configuration. -/
def PathOpt.get : PathOpt → Config → GoString
  | PathOpt.Reg_dir, c => c.Reg_dir
  | PathOpt.Worker_dir, c => c.Worker_dir
  | PathOpt.Pkgs_dir, c => c.Pkgs_dir
  | PathOpt.OLContainer_init_path, c => c.OLContainer_init_path
  | PathOpt.OLContainer_handler_base, c => c.OLContainer_handler_base
  | PathOpt.OLContainer_cache_base, c => c.OLContainer_cache_base
  | PathOpt.Import_cache_dir, c => c.Import_cache_dir

/-- Assignment to a path option. -/
def PathOpt.set : PathOpt → Config → GoString → Config
  | PathOpt.Reg_dir, c, v => { c with Reg_dir := v }
  | PathOpt.Worker_dir, c, v => { c with Worker_dir := v }
  | PathOpt.Pkgs_dir, c, v => { c with Pkgs_dir := v }
  | PathOpt.OLContainer_init_path, c, v => { c with OLContainer_init_path := v }
  | PathOpt.OLContainer_handler_base, c, v => { c with OLContainer_handler_base := v }
  | PathOpt.OLContainer_cache_base, c, v => { c with OLContainer_cache_base := v }
  | PathOpt.Import_cache_dir, c, v => { c with Import_cache_dir := v }

/-- The conditions under which `Defaults` checks a path option: `Reg_dir`, `Worker_dir` and
`Pkgs_dir` always; `OLContainer_init_path` and `OLContainer_handler_base` when the sandbox is
olcontainer; `OLContainer_cache_base` when the sandbox is olcontainer and `Import_cache_size` is
not zero; `Import_cache_dir` when `Import_cache_size` is not zero. -/
def isChecked (o : PathOpt) (c : Config) : Prop :=
  match o with
  | PathOpt.Reg_dir => True
  | PathOpt.Worker_dir => True
  | PathOpt.Pkgs_dir => True
  | PathOpt.OLContainer_init_path => c.Sandbox = "olcontainer".toList
  | PathOpt.OLContainer_handler_base => c.Sandbox = "olcontainer".toList
  | PathOpt.OLContainer_cache_base =>
    c.Sandbox = "olcontainer".toList ∧ c.Import_cache_size ≠ 0
  | PathOpt.Import_cache_dir => c.Import_cache_size ≠ 0

/-- The checked path options as the spec lists them: `OLContainer_cache_base` whenever the
sandbox is olcontainer. -/
def specChecked (o : PathOpt) (c : Config) : Prop :=
  match o with
  | PathOpt.Reg_dir => True
  | PathOpt.Worker_dir => True
  | PathOpt.Pkgs_dir => True
  | PathOpt.OLContainer_init_path => c.Sandbox = "olcontainer".toList
  | PathOpt.OLContainer_handler_base => c.Sandbox = "olcontainer".toList
  | PathOpt.OLContainer_cache_base => c.Sandbox = "olcontainer".toList
  | PathOpt.Import_cache_dir => c.Import_cache_size ≠ 0

instance (o : PathOpt) (c : Config) : Decidable (isChecked o c) := by
  cases o <;> unfold isChecked <;> infer_instance

instance (o : PathOpt) (c : Config) : Decidable (specChecked o c) := by
  cases o <;> unfold specChecked <;> infer_instance

/-- What one block of `Defaults` does to a path option when it returns no error: an absolute
value is kept, a relative one is replaced by the absolute form of the path joined onto the
directory of the base path `base`, which is then not empty. -/
def Resolved (env : PathEnv) (base old new : GoString) : Prop :=
  (IsAbs old ∧ new = old) ∨
  (¬ IsAbs old ∧ base ≠ [] ∧ Abs env (Join [Dir base, old]) = Except.ok new)

/-- The fields that decide which options are checked, and the base path, are the same. -/
def sameConds (c c1 : Config) : Prop :=
  c1.path = c.path ∧ c1.Sandbox = c.Sandbox ∧ c1.Import_cache_size = c.Import_cache_size

/-- A block `k` of `Defaults` that, when it returns no error, has resolved the options selected
by `S` and has left the other options alone. -/
def StepSpec (env : PathEnv) (k : Config → Config × Option String)
    (S : PathOpt → Config → Prop) : Prop :=
  ∀ c c1, k c = (c1, none) → sameConds c c1 ∧
    ∀ o, (S o c → Resolved env c.path (o.get c) (o.get c1)) ∧ (¬ S o c → o.get c1 = o.get c)

/-- The selection `S` looks only at the fields of `sameConds`. -/
def CondsOnly (S : PathOpt → Config → Prop) : Prop :=
  ∀ o c c1, sameConds c c1 → (S o c ↔ S o c1)

/-- An example environment: the worker runs in `/srv/worker`. -/
def exPathEnv : PathEnv := { Getwd := Except.ok "/srv/worker".toList }

/-- An example configuration with relative paths, as decoded from `/etc/ol/config.json`. -/
def exConfig : Config :=
  { path := "/etc/ol/config.json".toList, Registry := "local".toList,
    Sandbox := "olcontainer".toList, Reg_dir := "registry".toList, Cluster_name := [],
    Index_host := [], Index_port := [], Pkgs_dir := "../packages".toList, Max_runners := 1,
    Handler_cache_size := 0, Import_cache_size := 1024, Import_cache_buffer := 0,
    Import_cache_buffer_threads := 0, Import_cache_dir := "./import-cache".toList,
    Reg_cluster := [], Worker_dir := "/var/ol/worker".toList,
    OLContainer_init_path := "init".toList, OLContainer_handler_base := "base/handler".toList,
    OLContainer_cache_base := "base//cache/".toList, Worker_port := [], Sandbox_buffer := 0,
    Sandbox_buffer_threads := 0, Cg_pool_size := 0, Skip_pull_existing := false,
    Sandbox_config := none, Benchmark_file := [], Timing := true }

/-- An example configuration built in memory (empty base path): every path is absolute except
`OLContainer_cache_base`, and the import cache is off. -/
def exConfigNoCache : Config :=
  { exConfig with
    path := [], Reg_dir := "/ol/registry".toList, Pkgs_dir := "/ol/packages".toList,
    Import_cache_size := 0, Import_cache_dir := [], OLContainer_init_path := "/ol/init".toList,
    OLContainer_handler_base := "/ol/base/handler".toList,
    OLContainer_cache_base := "base/cache".toList }

/-! ## Contracts and examples used by the statements below -/

/-- A projection of a fork server that does not look at the fields `Provision` rewrites after
the structural step (`Sandbox`, `Pid`, `SockPath`, `Hits`, `Mutex`, `Dead`). -/
def Stable {α : Type} (g : ForkServer → α) : Prop :=
  ∀ (o : ForkServer) (sb : Option ContainerSandbox) (pid sock : GoString) (hits : Int)
    (mutex dead : Bool),
    g { o with Sandbox := sb, Pid := pid, SockPath := sock, Hits := hits,
               Mutex := mutex, Dead := dead } = g o

/-- Modelled from the spec: the matcher is defined outside the files at hand. Section 4.B, as
far as it constrains the pair (best, delta) for a request: `best` is a fork server of the heap,
`Packages(best)` is a subset of the request, and delta is the request minus `Packages(best)`. -/
def MatchContract (heap : List ForkServer) (request : List GoString)
    (res : Option Ptr × List GoString × Bool) : Prop :=
  ∃ best b, res.1 = some best ∧ heap[best]? = some b ∧
    (∀ p, hasPkg b.Packages p → p ∈ request) ∧
    (∀ p, p ∈ res.2.1 ↔ (p ∈ request ∧ ¬ hasPkg b.Packages p))

/-- An example sandbox handle. -/
def exSandbox : ContainerSandbox :=
  { NSPid := "4242".toList, RootDir := "/sb/root".toList, HostDir := "/sb/host".toList }

/-- An example size table. -/
def exSizes : GoMap Int := ⟨[("numpy".toList, 100), ("scipy".toList, 250)]⟩

/-- The root-only forest of the spec's scenario 1. -/
def exWorld : World := initWorld exSizes exSandbox "/cache/root".toList

/-- An example environment in which every outside call succeeds; the matcher answers with the
root and the whole request, which is what section 4.B asks for on a root-only forest. -/
def exEnv : Env :=
  { lowerTab := fun c => c,
    Match := fun _ _ request => (some 0, request, decide (request = [])),
    Create := Except.ok exSandbox,
    forkRequest := fun _ _ _ _ _ => Except.ok "17".toList,
    readyWait := fun _ => ReadyWait.ready,
    CGroupEnter := fun _ _ => none }

/-- The request of the spec's scenario 1. -/
def exRequest : List GoString := ["a".toList, "b".toList]

/-- The forests the cache manager can be in: the root-only forest that `InitCacheManager`
builds, and every state a `Provision` call leaves behind (however the call ends) when it starts
in such a forest and the matcher answers as section 4.B specifies. -/
inductive Reachable : World → Prop where
  | init (sizes : GoMap Int) (rootSB : ContainerSandbox) (rootDir : GoString) :
      Reachable (initWorld sizes rootSB rootDir)
  | step (env : Env) (w : World) (sandbox : ContainerSandbox) (dir : GoString)
      (request : List GoString) :
      Reachable w →
      MatchContract w.heap request (env.Match w.heap w.cm.servers request) →
      Reachable (Provision env w sandbox dir request).1

/-- The package set `par` is a strict subset of the package set `child`. -/
def StrictSubset (par child : GoMap Bool) : Prop :=
  (∀ p, hasPkg par p → hasPkg child p) ∧ ∃ p, hasPkg child p ∧ ¬ hasPkg par p

/-- Forest invariant 1: every node of the server list that has a parent has strictly more
packages than that parent. -/
def ParentInvariant (w : World) : Prop :=
  ∀ n, n ∈ w.cm.servers → ∃ node, w.heap[n]? = some node ∧
    ∀ q, node.Parent = some q →
      ∃ par, w.heap[q]? = some par ∧ StrictSubset par.Packages node.Packages

/-- The same invariant on the list of (Packages, Parent) pairs of all heap objects. -/
def ShapeInv (sh : List (GoMap Bool × Option Ptr)) : Prop :=
  ∀ (n : Nat) (pk : GoMap Bool) (q : Nat), sh[n]? = some (pk, some q) →
    ∃ (pkq : GoMap Bool) (pq : Option Ptr), sh[q]? = some (pkq, pq) ∧ StrictSubset pkq pk

/-- The three ways lines 143-194 of `newCacheEntry` return an error: `cm.factory.Create` fails,
the fork request to the parent (at socket `parentSock`) fails, or the 20 s timer fires before the
ready pipe is read. -/
def CreationFails (env : Env) (parentSock : GoString) (toCache : List GoString) : Prop :=
  (∃ err, env.Create = Except.error err) ∨
  (∃ sb err, env.Create = Except.ok sb ∧
    env.forkRequest parentSock sb.NSPid sb.RootDir toCache false = Except.error err) ∨
  (∃ sb pid, env.Create = Except.ok sb ∧
    env.forkRequest parentSock sb.NSPid sb.RootDir toCache false = Except.ok pid ∧
    env.readyWait sb = ReadyWait.timeout)

/-- The example environment, except that the new interpreter never writes to the ready pipe. -/
def exEnvTimeout : Env := { exEnv with readyWait := fun _ => ReadyWait.timeout }

/-- The example environment, except that the sandbox factory fails. -/
def exEnvCreateFail : Env := { exEnv with Create := Except.error "no cgroup left" }

/-- The example environment, except that every fork request fails. -/
def exEnvForkFail : Env :=
  { exEnv with forkRequest := fun _ _ _ _ _ => Except.error "fork server unreachable" }

/-- The example environment, except that the matcher finds no fork server. -/
def exEnvNoMatch : Env := { exEnv with Match := fun _ _ _ => (none, [], false) }

/-! ## The forest mutex along the trace -/

/-- The events in which the cache manager talks to a sandbox or to an interpreter: the factory's
`Create`, a `forkRequest`, the wait on the ready pipe, and `CGroupEnter`. -/
def isSandboxIO : Event → Bool
  | Event.factoryCreate => true
  | Event.forkRequest _ _ => true
  | Event.readyWait => true
  | Event.cgroupEnter => true
  | _ => false

/-- Whether the caller holds the forest mutex after the events `evs`, given whether it held the
mutex before them. -/
def forestHeldAfter : Bool → List Event → Bool
  | held, [] => held
  | _, Event.lockForest :: es => forestHeldAfter true es
  | _, Event.unlockForest :: es => forestHeldAfter false es
  | held, _ :: es => forestHeldAfter held es

/-- The events `evs` neither lock nor unlock the forest mutex. -/
def NoForest (evs : List Event) : Prop :=
  Event.lockForest ∉ evs ∧ Event.unlockForest ∉ evs

/-! ## Lemmas about maps and the heap -/

theorem GoMap.get?_set {V : Type} (m : GoMap V) (k k' : GoString) (v : V) :
    (m.set k v).get? k' = if k' = k then some v else m.get? k' := by
  obtain ⟨es⟩ := m
  simp only [GoMap.set, GoMap.get?]
  induction es with
  | nil =>
    by_cases h : k = k'
    · subst h; simp [GoMap.setEntries]
    · have h' : ¬ k' = k := fun e => h e.symm
      simp [GoMap.setEntries, h, h']
  | cons e es ih =>
    by_cases he : e.1 = k
    · by_cases h : k = k'
      · subst h; simp [GoMap.setEntries, he]
      · have h' : ¬ k' = k := fun e => h e.symm
        have h2 : ¬ e.1 = k' := fun e' => h (he ▸ e')
        simp [GoMap.setEntries, he, h, h', List.find?_cons, h2]
    · by_cases h2 : e.1 = k'
      · have h' : ¬ k' = k := fun e' => he (h2.trans e')
        simp [GoMap.setEntries, he, List.find?_cons, h2, h']
      · simp only [GoMap.setEntries, he, if_false, List.find?_cons, h2, decide_False]
        exact ih

theorem GoMap.get?_empty {V : Type} (k : GoString) : (GoMap.empty : GoMap V).get? k = none := rfl

theorem get?_copyPackages (src : GoMap Bool) (k : GoString) :
    (copyPackages src).get? k = src.get? k := by
  obtain ⟨es⟩ := src
  induction es with
  | nil => rfl
  | cons e es ih =>
    have hstep : copyPackages ⟨e :: es⟩ = (copyPackages ⟨es⟩).set e.1 e.2 := rfl
    rw [hstep, GoMap.get?_set, ih]
    by_cases h : e.1 = k
    · subst h; simp [GoMap.get?, List.find?_cons]
    · have h' : ¬ k = e.1 := fun e' => h e'.symm
      simp [GoMap.get?, List.find?_cons, h, h']

theorem cacheLoop_get? (tab : Char → Char) (sizes : GoMap Int) (delta : List GoString)
    (pkgs : GoMap Bool) (size : Int) (k : GoString) :
    (cacheLoop tab sizes delta (pkgs, size)).1.get? k
      = if k ∈ delta then some true else pkgs.get? k := by
  induction delta generalizing pkgs size with
  | nil => simp [cacheLoop]
  | cons p rest ih =>
    simp only [cacheLoop]
    rw [ih, GoMap.get?_set]
    by_cases h1 : k ∈ rest
    · simp [h1]
    · by_cases h2 : k = p
      · simp [h2]
      · simp [h1, h2]

theorem cacheLoop_size (tab : Char → Char) (sizes : GoMap Int) (delta : List GoString)
    (pkgs : GoMap Bool) (size : Int) :
    (cacheLoop tab sizes delta (pkgs, size)).2
      = size + (delta.map (fun p => sizes.index (ToLower tab p))).sum := by
  induction delta generalizing pkgs size with
  | nil => simp [cacheLoop]
  | cons p rest ih =>
    simp only [cacheLoop]
    rw [ih]
    simp [add_assoc]

theorem wrapInt_of_range (x : Int) (h1 : minInt ≤ x) (h2 : x ≤ maxInt) : wrapInt x = x := by
  unfold wrapInt
  unfold minInt at h1
  unfold maxInt at h2
  have : (x + 2 ^ 63) % 2 ^ 64 = x + 2 ^ 63 := by
    apply Int.emod_eq_of_lt <;> omega
  omega

theorem hasPkg_empty (p : GoString) : ¬ hasPkg GoMap.empty p := by
  simp [hasPkg, GoMap.index, GoMap.get?, GoMap.empty]

/-! ## C1: the structural step of newCacheEntry -/

theorem heap_set_append_new (heap : List ForkServer) (n x : ForkServer) (p : Nat)
    (hp : p < heap.length) : ((heap ++ [n]).set p x)[heap.length]? = some n := by
  rw [List.getElem?_set]
  have h1 : ¬ p = heap.length := by omega
  simp [h1]

theorem heap_set_append_self (heap : List ForkServer) (n x : ForkServer) (p : Nat)
    (hp : p < heap.length) : ((heap ++ [n]).set p x)[p]? = some x := by
  rw [List.getElem?_set]
  have h2 : p < heap.length + 1 := by omega
  simp [h2]

theorem heap_set_append_other (heap : List ForkServer) (n x : ForkServer) (p q : Nat)
    (hq : q < heap.length) (hne : q ≠ p) : ((heap ++ [n]).set p x)[q]? = heap[q]? := by
  rw [List.getElem?_set]
  have : ¬ p = q := fun e => hne e.symm
  simp [this, List.getElem?_append_left hq]

/-- C1. For every state, every fork server `best` in the heap (whose `Children`, a Go `int`, is
not the largest `int`, so that the increment does not wrap) and every delta list, lines 115-137 of `newCacheEntry` allocate
exactly one new object, at the first free address, whose `Packages` are those of `best` united
with the delta, whose `Parent` is `best`, whose `Hits` and `Children` are 0; `best.Children` grows
by exactly 1 and `best` is otherwise unchanged; the new address is appended at the end of
`cm.servers`; every other object is unchanged. -/
theorem newCacheEntry_structural_step (tab : Char → Char) (w : World) (best : Ptr)
    (b : ForkServer) (delta : List GoString)
    (hb : w.heap[best]? = some b) (hlo : minInt ≤ b.Children) (hhi : b.Children < maxInt) :
    ∃ w1 size newNode,
      newCacheEntryStruct tab w (some best) delta = some (w1, w.heap.length, size) ∧
      w1.heap.length = w.heap.length + 1 ∧
      w1.heap[w.heap.length]? = some newNode ∧
      (∀ k, newNode.Packages.get? k = if k ∈ delta then some true else b.Packages.get? k) ∧
      (∀ k, hasPkg newNode.Packages k ↔ (hasPkg b.Packages k ∨ k ∈ delta)) ∧
      newNode.Parent = some best ∧ newNode.Hits = 0 ∧ newNode.Children = 0 ∧
      w1.heap[best]? = some { b with Children := b.Children + 1 } ∧
      w1.cm.servers = w.cm.servers ++ [w.heap.length] ∧
      (∀ q, q < w.heap.length → q ≠ best → w1.heap[q]? = w.heap[q]?) := by
  have hlt : best < w.heap.length := by
    rcases Nat.lt_or_ge best w.heap.length with h | h
    · exact h
    · rw [List.getElem?_eq_none h] at hb; cases hb
  have hwrap : wrapInt (b.Children + 1) = b.Children + 1 := by
    apply wrapInt_of_range
    · unfold minInt at *; omega
    · unfold maxInt at *; omega
  have hpk : ∀ k, (cacheLoop tab w.cm.sizes delta (copyPackages b.Packages, 0)).1.get? k
      = if k ∈ delta then some true else b.Packages.get? k := by
    intro k; rw [cacheLoop_get?, get?_copyPackages]
  obtain ⟨w1, size, hrun⟩ : ∃ w1 size,
      newCacheEntryStruct tab w (some best) delta = some (w1, w.heap.length, size) := by
    simp only [newCacheEntryStruct, hb]
    exact ⟨_, _, rfl⟩
  have hrun2 := hrun
  simp only [newCacheEntryStruct, hb, Option.some.injEq, Prod.mk.injEq, true_and] at hrun2
  obtain ⟨hw1, -⟩ := hrun2
  subst hw1
  refine ⟨_, size, _, hrun, ?_, heap_set_append_new _ _ _ _ hlt, ?_, ?_, ?_, ?_, ?_, ?_, ?_, ?_⟩
  · simp
  · exact hpk
  · intro k
    simp only [hasPkg, GoMap.index, freshNode]
    rw [hpk k]
    by_cases hk : k ∈ delta
    · simp [hk]
    · simp [hk]
  · rfl
  · rfl
  · rfl
  · simp only [hwrap]
    exact heap_set_append_self _ _ _ _ hlt
  · rfl
  · intro q hq hne
    exact heap_set_append_other _ _ _ _ _ hq hne

/-- Witness for C1: scenario 1 of the spec. On the root-only forest, with delta [a, b], the
structural step allocates node 1 with parent 0 and packages a and b, sets the root's `Children`
to 1 and makes the server list [0, 1]. -/
theorem newCacheEntry_structural_step_witness :
    exWorld.heap[0]? = some (rootServer exSandbox "/cache/root".toList) ∧
    ∃ w1 size newNode,
      newCacheEntryStruct (fun c => c) exWorld (some 0) exRequest = some (w1, 1, size) ∧
      w1.heap[1]? = some newNode ∧
      (∀ k, hasPkg newNode.Packages k ↔ k ∈ exRequest) ∧
      newNode.Parent = some 0 ∧ newNode.Hits = 0 ∧ newNode.Children = 0 ∧
      (w1.heap[0]?).map (fun o => o.Children) = some 1 ∧
      w1.cm.servers = [0, 1] := by
  refine ⟨rfl, ?_⟩
  obtain ⟨w1, size, newNode, h1, -, h3, -, h5, h6, h7, h8, h9, h10, -⟩ :=
    newCacheEntry_structural_step (fun c => c) exWorld 0
      (rootServer exSandbox "/cache/root".toList) exRequest rfl (by decide) (by decide)
  refine ⟨w1, size, newNode, h1, h3, ?_, h6, h7, h8, ?_, h10⟩
  · intro k
    rw [h5 k]
    constructor
    · intro h
      rcases h with h | h
      · exact absurd h (hasPkg_empty k)
      · exact h
    · intro h
      exact Or.inr h
  · rw [h9]
    rfl

/-! ## Frame lemmas: what the steps after the structural one leave alone -/

theorem update_heap_map {α : Type} (g : ForkServer → α) (w : World) (p : Nat)
    (f : ForkServer → ForkServer) (hf : ∀ o, g (f o) = g o) :
    (w.update p f).heap.map g = w.heap.map g := by
  unfold World.update
  split
  · rename_i o ho
    show (w.heap.set p (f o)).map g = w.heap.map g
    rw [List.map_set, hf]
    apply List.ext_getElem?
    intro i
    rw [List.getElem?_set]
    split
    · rename_i hpi
      subst hpi
      have hlt : p < w.heap.length := by
        rcases Nat.lt_or_ge p w.heap.length with h | h
        · exact h
        · rw [List.getElem?_eq_none h] at ho; cases ho
      rw [List.getElem?_map, ho]
      simp [hlt]
    · rfl
  · rfl

theorem update_cm (w : World) (p : Nat) (f : ForkServer → ForkServer) :
    (w.update p f).cm = w.cm := by
  unfold World.update
  split <;> rfl

theorem update_trace (w : World) (p : Nat) (f : ForkServer → ForkServer) :
    (w.update p f).trace = w.trace := by
  unfold World.update
  split <;> rfl

theorem lockNode_frame {α : Type} (g : ForkServer → α) (hg : Stable g) (w w1 : World)
    (fs : Option Ptr) (h : lockNode w fs = some w1) :
    w1.heap.map g = w.heap.map g ∧ w1.cm = w.cm := by
  unfold lockNode at h
  split at h
  · cases h
  · split at h
    · cases h
    · cases h
      refine ⟨?_, ?_⟩
      · exact update_heap_map g w _ _ (fun o => hg o o.Sandbox o.Pid o.SockPath o.Hits true o.Dead)
      · exact update_cm w _ _

theorem unlockNode_frame {α : Type} (g : ForkServer → α) (hg : Stable g) (w w1 : World)
    (fs : Option Ptr) (h : unlockNode w fs = some w1) :
    w1.heap.map g = w.heap.map g ∧ w1.cm = w.cm := by
  unfold unlockNode at h
  split at h
  · cases h
  · split at h
    · cases h
    · cases h
      refine ⟨?_, ?_⟩
      · exact update_heap_map g w _ _ (fun o => hg o o.Sandbox o.Pid o.SockPath o.Hits false o.Dead)
      · exact update_cm w _ _

theorem unlockNode_getD_frame {α : Type} (g : ForkServer → α) (hg : Stable g) (w : World)
    (fs : Option Ptr) :
    ((unlockNode w fs).getD w).heap.map g = w.heap.map g ∧ ((unlockNode w fs).getD w).cm = w.cm := by
  cases h : unlockNode w fs with
  | none => exact ⟨rfl, rfl⟩
  | some w1 => exact unlockNode_frame g hg w w1 fs h

theorem killNode_frame {α : Type} (g : ForkServer → α) (hg : Stable g) (w : World) (p : Nat) :
    (killNode w p).heap.map g = w.heap.map g ∧ (killNode w p).cm = w.cm := by
  refine ⟨?_, ?_⟩
  · exact update_heap_map g w _ _ (fun o => hg o none o.Pid o.SockPath o.Hits o.Mutex true)
  · exact update_cm w _ _

theorem newCacheEntryStruct_inv (tab : Char → Char) (w ws : World) (fs : Option Ptr)
    (toCache : List GoString) (a : Nat) (s : Int)
    (hs : newCacheEntryStruct tab w fs toCache = some (ws, a, s)) :
    ∃ (p : Nat) (parent : ForkServer), fs = some p ∧ w.heap[p]? = some parent ∧
      p < w.heap.length ∧ a = w.heap.length ∧
      ws.heap = (w.heap ++ [freshNode
          (cacheLoop tab w.cm.sizes toCache (copyPackages parent.Packages, 0)).1 p]).set p
          { parent with Children := wrapInt (parent.Children + 1) } ∧
      ws.cm.servers = w.cm.servers ++ [w.heap.length] ∧
      ws.cm.mutex = w.cm.mutex ∧ ws.trace = w.trace := by
  unfold newCacheEntryStruct at hs
  split at hs
  · cases hs
  · rename_i p
    split at hs
    · cases hs
    · rename_i parent hp
      have hlt : p < w.heap.length := by
        rcases Nat.lt_or_ge p w.heap.length with h | h
        · exact h
        · rw [List.getElem?_eq_none h] at hp; cases hp
      simp only [Option.some.injEq, Prod.mk.injEq] at hs
      obtain ⟨hw, ha, -⟩ := hs
      subst hw
      exact ⟨p, parent, rfl, hp, hlt, ha.symm, rfl, rfl, rfl, rfl⟩

theorem newCacheEntryStruct_none (env : Env) (w : World) (fs : Option Ptr)
    (toCache : List GoString) (hs : newCacheEntryStruct env.lowerTab w fs toCache = none) :
    newCacheEntry env w fs toCache = (w, Outcome.panic) := by
  unfold newCacheEntry
  rw [hs]

theorem newCacheEntry_frame {α : Type} (g : ForkServer → α) (hg : Stable g) (env : Env)
    (w ws : World) (fs : Option Ptr) (toCache : List GoString) (a : Nat) (s : Int)
    (hs : newCacheEntryStruct env.lowerTab w fs toCache = some (ws, a, s)) :
    (newCacheEntry env w fs toCache).1.heap.map g = ws.heap.map g ∧
    (newCacheEntry env w fs toCache).1.cm.servers = ws.cm.servers ∧
    (∀ F, (newCacheEntry env w fs toCache).2 = Outcome.ret (F, none) → F = some a) := by
  unfold newCacheEntry
  rw [hs]
  dsimp only
  cases hl : lockNode ws (some a) with
  | none => exact ⟨rfl, rfl, fun F h => by cases h⟩
  | some w2 =>
    obtain ⟨h2, c2⟩ := lockNode_frame g hg _ _ _ hl
    have c2s : w2.cm.servers = ws.cm.servers := by rw [c2]
    dsimp only
    cases hc : env.Create with
    | error err =>
      dsimp only
      have hk := killNode_frame g hg ((unlockForest w2).emit Event.factoryCreate) a
      refine ⟨hk.1.trans h2, ?_, fun F h => by cases h⟩
      rw [hk.2]; exact c2s
    | ok sandbox =>
      dsimp only
      cases hpar : fs.bind (fun p => ((unlockForest w2).emit Event.factoryCreate).heap[p]?) with
      | none => exact ⟨h2, c2s, fun F h => by cases h⟩
      | some parent =>
        dsimp only
        cases hf : env.forkRequest parent.SockPath sandbox.NSPid sandbox.RootDir toCache false with
        | error err =>
          dsimp only
          cases hu : unlockNode (((unlockForest w2).emit Event.factoryCreate).emit
              (Event.forkRequest parent.SockPath false)) (some a) with
          | none => exact ⟨h2, c2s, fun F h => by cases h⟩
          | some w6 =>
            dsimp only
            obtain ⟨h6, c6⟩ := unlockNode_frame g hg _ _ _ hu
            have hk := killNode_frame g hg w6 a
            refine ⟨hk.1.trans (h6.trans h2), ?_, fun F h => by cases h⟩
            rw [hk.2, c6]; exact c2s
        | ok pid =>
          dsimp only
          cases hr : env.readyWait sandbox with
          | fatalf => exact ⟨h2, c2s, fun F h => by cases h⟩
          | timeout => exact ⟨h2, c2s, fun F h => by cases h⟩
          | ready =>
            dsimp only
            refine ⟨?_, ?_, fun F h => by cases h; rfl⟩
            · rw [update_heap_map g _ _ _
                (fun o => hg o (some sandbox) pid _ o.Hits o.Mutex o.Dead)]
              exact h2
            · rw [update_cm]; exact c2s

theorem provisionServe_frame {α : Type} (g : ForkServer → α) (hg : Stable g) (env : Env)
    (w : World) (fs : Option Ptr) (hit : Bool) (sandbox : ContainerSandbox) :
    (provisionServe env w fs hit sandbox).1.heap.map g = w.heap.map g ∧
    (provisionServe env w fs hit sandbox).1.cm.servers = w.cm.servers ∧
    (∀ F h, (provisionServe env w fs hit sandbox).2 = Outcome.ret ⟨some F, h, none⟩ →
      fs = some F) := by
  unfold provisionServe
  cases hb : fs.bind (fun p => w.heap[p]?) with
  | none => exact ⟨rfl, rfl, fun F h e => by cases e⟩
  | some o =>
    dsimp only
    have h1 : ∀ e : Event,
        ((match fs with
          | some p => (w.update p ForkServer.Hit).emit (Event.hit p)
          | none => w).emit e).heap.map g = w.heap.map g ∧
        ((match fs with
          | some p => (w.update p ForkServer.Hit).emit (Event.hit p)
          | none => w).emit e).cm = w.cm := by
      intro e
      cases fs with
      | none => exact ⟨rfl, rfl⟩
      | some p =>
        refine ⟨?_, ?_⟩
        · exact update_heap_map g w _ _
            (fun o => hg o o.Sandbox o.Pid o.SockPath (o.Hits + 1) o.Mutex o.Dead)
        · exact update_cm w _ _
    cases hf : env.forkRequest o.SockPath sandbox.NSPid sandbox.RootDir [] true with
    | error err =>
      dsimp only
      obtain ⟨hu, cu⟩ := unlockNode_getD_frame g hg
        ((match fs with
          | some p => (w.update p ForkServer.Hit).emit (Event.hit p)
          | none => w).emit (Event.forkRequest o.SockPath true)) fs
      refine ⟨hu.trans (h1 _).1, ?_, fun F h e => by cases e⟩
      rw [cu, (h1 _).2]
    | ok pid =>
      dsimp only
      obtain ⟨hu, cu⟩ := unlockNode_getD_frame g hg
        (((match fs with
          | some p => (w.update p ForkServer.Hit).emit (Event.hit p)
          | none => w).emit (Event.forkRequest o.SockPath true)).emit Event.cgroupEnter) fs
      have hh : (((match fs with
          | some p => (w.update p ForkServer.Hit).emit (Event.hit p)
          | none => w).emit (Event.forkRequest o.SockPath true)).emit
            Event.cgroupEnter).heap.map g = w.heap.map g :=
        (h1 (Event.forkRequest o.SockPath true)).1
      have hc : (((match fs with
          | some p => (w.update p ForkServer.Hit).emit (Event.hit p)
          | none => w).emit (Event.forkRequest o.SockPath true)).emit
            Event.cgroupEnter).cm = w.cm := (h1 (Event.forkRequest o.SockPath true)).2
      cases hcg : env.CGroupEnter sandbox pid with
      | some err =>
        dsimp only
        refine ⟨hu.trans hh, ?_, fun F h e => by cases e⟩
        rw [cu, hc]
      | none =>
        dsimp only
        refine ⟨hu.trans hh, ?_, fun F h e => by cases e; rfl⟩
        rw [cu, hc]

theorem Provision_frame_reuse {α : Type} (g : ForkServer → α) (hg : Stable g) (env : Env)
    (w : World) (sandbox : ContainerSandbox) (dir : GoString) (pkgs : List GoString)
    (fs : Option Ptr) (hit : Bool)
    (hm : env.Match w.heap w.cm.servers pkgs = (fs, [], hit)) :
    (Provision env w sandbox dir pkgs).1.heap.map g = w.heap.map g ∧
    (Provision env w sandbox dir pkgs).1.cm.servers = w.cm.servers ∧
    (∀ F h, (Provision env w sandbox dir pkgs).2 = Outcome.ret ⟨some F, h, none⟩ →
      fs = some F) := by
  have hm1 : env.Match (lockForest w).heap (lockForest w).cm.servers pkgs = (fs, [], hit) := hm
  simp only [Provision]
  rw [hm1]
  dsimp only
  rw [if_neg (by simp)]
  cases hl : lockNode (lockForest w) fs with
  | none => exact ⟨rfl, rfl, fun F h e => by cases e⟩
  | some w2 =>
    dsimp only
    obtain ⟨h2, c2⟩ := lockNode_frame g hg _ _ _ hl
    have h2s : w2.heap.map g = w.heap.map g := h2
    have c2s : w2.cm.servers = w.cm.servers := by rw [c2]; rfl
    cases fs with
    | none => cases hl
    | some p =>
      rw [if_neg (by simp)]
      obtain ⟨a, b, c⟩ := provisionServe_frame g hg env (unlockForest w2) (some p) hit sandbox
      exact ⟨a.trans h2s, b.trans c2s, c⟩

theorem Provision_frame_new {α : Type} (g : ForkServer → α) (hg : Stable g) (env : Env)
    (w ws : World) (sandbox : ContainerSandbox) (dir : GoString) (pkgs : List GoString)
    (fs : Option Ptr) (toCache : List GoString) (hit : Bool) (a : Nat) (s : Int)
    (hm : env.Match w.heap w.cm.servers pkgs = (fs, toCache, hit)) (hne : toCache ≠ [])
    (hs : newCacheEntryStruct env.lowerTab (lockForest w) fs toCache = some (ws, a, s)) :
    (Provision env w sandbox dir pkgs).1.heap.map g = ws.heap.map g ∧
    (Provision env w sandbox dir pkgs).1.cm.servers = ws.cm.servers ∧
    (∀ F h, (Provision env w sandbox dir pkgs).2 = Outcome.ret ⟨some F, h, none⟩ →
      F = a) := by
  have hm1 : env.Match (lockForest w).heap (lockForest w).cm.servers pkgs
      = (fs, toCache, hit) := hm
  simp only [Provision]
  rw [hm1]
  dsimp only
  have hlen : toCache.length ≠ 0 := by
    intro h; exact hne (List.length_eq_zero.mp h)
  rw [if_pos hlen]
  obtain ⟨h1, h2, h3⟩ := newCacheEntry_frame g hg env (lockForest w) ws fs toCache a s hs
  cases hr : newCacheEntry env (lockForest w) fs toCache with
  | mk w2 out =>
    rw [hr] at h1 h2 h3
    cases out with
    | panic => exact ⟨h1, h2, fun F h e => by cases e⟩
    | fatal => exact ⟨h1, h2, fun F h e => by cases e⟩
    | ret v =>
      obtain ⟨newFs, err⟩ := v
      cases err with
      | some e => exact ⟨h1, h2, fun F h e => by cases e⟩
      | none =>
        dsimp only
        have hF := h3 newFs rfl
        obtain ⟨a1, b1, c1⟩ := provisionServe_frame g hg env w2 newFs hit sandbox
        refine ⟨a1.trans h1, b1.trans h2, ?_⟩
        intro F h e
        have := c1 F h e
        rw [hF] at this
        cases this
        rfl

theorem Provision_frame_nil (env : Env)
    (w : World) (sandbox : ContainerSandbox) (dir : GoString) (pkgs : List GoString)
    (fs : Option Ptr) (toCache : List GoString) (hit : Bool)
    (hm : env.Match w.heap w.cm.servers pkgs = (fs, toCache, hit)) (hne : toCache ≠ [])
    (hs : newCacheEntryStruct env.lowerTab (lockForest w) fs toCache = none) :
    Provision env w sandbox dir pkgs = (lockForest w, Outcome.panic) := by
  have hm1 : env.Match (lockForest w).heap (lockForest w).cm.servers pkgs
      = (fs, toCache, hit) := hm
  simp only [Provision]
  rw [hm1]
  dsimp only
  have hlen : toCache.length ≠ 0 := by
    intro h; exact hne (List.length_eq_zero.mp h)
  rw [if_pos hlen, newCacheEntryStruct_none env _ fs toCache hs]

theorem stable_packages : Stable (fun o : ForkServer => o.Packages) :=
  fun _ _ _ _ _ _ _ => rfl

theorem stable_shape : Stable (fun o : ForkServer => (o.Packages, o.Parent)) :=
  fun _ _ _ _ _ _ _ => rfl

theorem stable_children : Stable (fun o : ForkServer => o.Children) :=
  fun _ _ _ _ _ _ _ => rfl

theorem heap_map_lookup {α : Type} (g : ForkServer → α) (l1 l2 : List ForkServer)
    (h : l1.map g = l2.map g) (q : Nat) (o : ForkServer) (ho : l2[q]? = some o) :
    ∃ o1, l1[q]? = some o1 ∧ g o1 = g o := by
  have h1 : (l1.map g)[q]? = (l2.map g)[q]? := by rw [h]
  rw [List.getElem?_map, List.getElem?_map, ho] at h1
  cases h2 : l1[q]? with
  | none => rw [h2] at h1; cases h1
  | some o1 =>
    rw [h2] at h1
    simp only [Option.map_some', Option.some.injEq] at h1
    exact ⟨o1, rfl, h1⟩

theorem newCacheEntryStruct_ok (tab : Char → Char) (w : World) (best : Nat) (b : ForkServer)
    (delta : List GoString) (hb : w.heap[best]? = some b) :
    ∃ ws s, newCacheEntryStruct tab w (some best) delta = some (ws, w.heap.length, s) := by
  simp only [newCacheEntryStruct, hb]
  exact ⟨_, _, rfl⟩

/-- What a `Provision` that takes the new-entry branch leaves in the heap and the server list,
seen through any projection that ignores the fields rewritten after the structural step. -/
theorem Provision_new_summary (env : Env) (w : World) (sandbox : ContainerSandbox)
    (dir : GoString) (pkgs : List GoString) (best : Nat) (b : ForkServer)
    (delta : List GoString) (hit : Bool)
    (hm : env.Match w.heap w.cm.servers pkgs = (some best, delta, hit)) (hne : delta ≠ [])
    (hb : w.heap[best]? = some b) :
    (∀ (α : Type) (g : ForkServer → α), Stable g →
      (Provision env w sandbox dir pkgs).1.heap.map g
        = ((w.heap ++ [freshNode
            (cacheLoop env.lowerTab w.cm.sizes delta (copyPackages b.Packages, 0)).1 best]).set
            best { b with Children := wrapInt (b.Children + 1) }).map g) ∧
    (Provision env w sandbox dir pkgs).1.cm.servers = w.cm.servers ++ [w.heap.length] ∧
    (∀ F h, (Provision env w sandbox dir pkgs).2 = Outcome.ret ⟨some F, h, none⟩ →
      F = w.heap.length) := by
  have hb1 : (lockForest w).heap[best]? = some b := hb
  obtain ⟨ws, s, hs⟩ := newCacheEntryStruct_ok env.lowerTab (lockForest w) best b delta hb1
  obtain ⟨p, parent, hp, hpar, -, -, hheap, hserv, -, -⟩ :=
    newCacheEntryStruct_inv _ _ _ _ _ _ _ hs
  cases hp
  rw [hb1] at hpar
  cases hpar
  have hheap1 : ws.heap = (w.heap ++ [freshNode
      (cacheLoop env.lowerTab w.cm.sizes delta (copyPackages b.Packages, 0)).1 best]).set
      best { b with Children := wrapInt (b.Children + 1) } := hheap
  have hserv1 : ws.cm.servers = w.cm.servers ++ [w.heap.length] := hserv
  refine ⟨?_, ?_, ?_⟩
  · intro α g hg
    rw [← hheap1]
    exact (Provision_frame_new g hg env w ws sandbox dir pkgs _ delta hit _ s hm hne hs).1
  · rw [← hserv1]
    exact (Provision_frame_new (fun o : ForkServer => o.Packages) stable_packages env w ws
      sandbox dir pkgs _ delta hit _ s hm hne hs).2.1
  · exact (Provision_frame_new (fun o : ForkServer => o.Packages) stable_packages env w ws
      sandbox dir pkgs _ delta hit _ s hm hne hs).2.2

theorem hasPkg_cacheLoop (tab : Char → Char) (sizes : GoMap Int) (delta : List GoString)
    (src : GoMap Bool) (k : GoString) :
    hasPkg (cacheLoop tab sizes delta (copyPackages src, 0)).1 k ↔ (hasPkg src k ∨ k ∈ delta) := by
  simp only [hasPkg, GoMap.index]
  rw [cacheLoop_get?, get?_copyPackages]
  by_cases hk : k ∈ delta
  · simp [hk]
  · simp [hk]

/-! ## C2: a successful Provision returns a server that covers the request -/

/-- C2. Whenever `Provision` succeeds on request `R` and the matcher has answered as section 4.B
specifies (`Packages(best)` a subset of `R`, delta equal to `R` minus `Packages(best)`), the
returned fork server `F` has every package of `R`; with an empty delta `F` is `best`, with a
non-empty delta `F` is the newly allocated node and its packages are those of `best` united with
the delta. -/
theorem Provision_result_covers_request (env : Env) (w w1 : World) (sandbox : ContainerSandbox)
    (dir : GoString) (R : List GoString) (F : Ptr) (hit1 : Bool)
    (hm : MatchContract w.heap R (env.Match w.heap w.cm.servers R))
    (hok : Provision env w sandbox dir R = (w1, Outcome.ret ⟨some F, hit1, none⟩)) :
    ∃ f best b, w1.heap[F]? = some f ∧
      (env.Match w.heap w.cm.servers R).1 = some best ∧ w.heap[best]? = some b ∧
      (∀ p, p ∈ R → hasPkg f.Packages p) ∧
      ((env.Match w.heap w.cm.servers R).2.1 = [] → F = best) ∧
      ((env.Match w.heap w.cm.servers R).2.1 ≠ [] → F = w.heap.length ∧
        ∀ p, hasPkg f.Packages p ↔
          (hasPkg b.Packages p ∨ p ∈ (env.Match w.heap w.cm.servers R).2.1)) := by
  obtain ⟨best, b, hbest, hb, -, hdelta⟩ := hm
  have hw1 : (Provision env w sandbox dir R).1 = w1 := by rw [hok]
  have hout : (Provision env w sandbox dir R).2 = Outcome.ret ⟨some F, hit1, none⟩ := by rw [hok]
  rcases hres : env.Match w.heap w.cm.servers R with ⟨fs, delta, hit⟩
  rw [hres] at hbest hdelta
  simp only at hbest hdelta ⊢
  subst hbest
  by_cases hd : delta = []
  · subst hd
    obtain ⟨h1, -, h3⟩ := Provision_frame_reuse (fun o : ForkServer => o.Packages)
      stable_packages env w sandbox dir R (some best) hit hres
    have hF : best = F := by
      have := h3 F hit1 hout
      cases this
      rfl
    subst hF
    rw [hw1] at h1
    obtain ⟨f, hf, hfp⟩ := heap_map_lookup _ _ _ h1 best b hb
    refine ⟨f, best, b, hf, rfl, hb, ?_, fun _ => rfl, fun h => absurd rfl h⟩
    intro p hp
    have hfp1 : f.Packages = b.Packages := hfp
    rw [hfp1]
    by_contra hcon
    have := (hdelta p).mpr ⟨hp, hcon⟩
    cases this
  · obtain ⟨h1, -, h3⟩ := Provision_new_summary env w sandbox dir R best b delta hit hres hd hb
    have hF : F = w.heap.length := h3 F hit1 hout
    have hlt : best < w.heap.length := by
      rcases Nat.lt_or_ge best w.heap.length with h | h
      · exact h
      · rw [List.getElem?_eq_none h] at hb; cases hb
    have h1p := h1 _ (fun o : ForkServer => o.Packages) stable_packages
    rw [hw1] at h1p
    obtain ⟨f, hf, hfp⟩ := heap_map_lookup _ _ _ h1p w.heap.length _
      (heap_set_append_new w.heap _ _ best hlt)
    have hfp1 : f.Packages
        = (cacheLoop env.lowerTab w.cm.sizes delta (copyPackages b.Packages, 0)).1 := hfp
    refine ⟨f, best, b, by rw [hF]; exact hf, rfl, hb, ?_, fun h => absurd h hd,
      fun _ => ⟨hF, ?_⟩⟩
    · intro p hp
      rw [hfp1, hasPkg_cacheLoop]
      by_cases hh : hasPkg b.Packages p
      · exact Or.inl hh
      · exact Or.inr ((hdelta p).mpr ⟨hp, hh⟩)
    · intro p
      rw [hfp1, hasPkg_cacheLoop]

theorem exEnv_contract (heap : List ForkServer) (servers : List Ptr) (b : ForkServer)
    (hb : heap[0]? = some b) (hp : b.Packages = GoMap.empty) (request : List GoString) :
    MatchContract heap request (exEnv.Match heap servers request) := by
  refine ⟨0, b, rfl, hb, ?_, ?_⟩
  · intro p h
    rw [hp] at h
    exact absurd h (hasPkg_empty p)
  · intro p
    rw [hp]
    constructor
    · intro h
      exact ⟨h, hasPkg_empty p⟩
    · intro h
      exact h.1

/-- Witness for C2: scenario 1 of the spec. On the root-only forest the request [a, b] is served
by the new node at address 1, which has both packages. -/
theorem Provision_result_covers_request_witness :
    MatchContract exWorld.heap exRequest
      (exEnv.Match exWorld.heap exWorld.cm.servers exRequest) ∧
    (Provision exEnv exWorld exSandbox [] exRequest).2 = Outcome.ret ⟨some 1, false, none⟩ ∧
    ∃ f, (Provision exEnv exWorld exSandbox [] exRequest).1.heap[1]? = some f ∧
      ∀ p, p ∈ exRequest → hasPkg f.Packages p := by
  have hm : MatchContract exWorld.heap exRequest
      (exEnv.Match exWorld.heap exWorld.cm.servers exRequest) :=
    exEnv_contract _ _ _ rfl rfl _
  have hrun : (Provision exEnv exWorld exSandbox [] exRequest).2
      = Outcome.ret ⟨some 1, false, none⟩ := by decide
  obtain ⟨f, _, _, hf, -, -, hcov, -, -⟩ :=
    Provision_result_covers_request exEnv exWorld _ exSandbox [] exRequest 1 false hm
      (Prod.ext rfl hrun)
  exact ⟨hm, hrun, f, hf, hcov⟩

/-! ## C3: every non-root node has strictly more packages than its parent -/

theorem heap_new_map {α : Type} (g : ForkServer → α) (heap : List ForkServer)
    (n b b1 : ForkServer) (best : Nat) (hb : heap[best]? = some b) (hg : g b1 = g b) :
    ((heap ++ [n]).set best b1).map g = heap.map g ++ [g n] := by
  have hlt : best < heap.length := by
    rcases Nat.lt_or_ge best heap.length with h | h
    · exact h
    · rw [List.getElem?_eq_none h] at hb; cases hb
  rw [List.set_append_left _ _ hlt, List.map_append, List.map_set, hg]
  congr 1
  apply List.ext_getElem?
  intro i
  rw [List.getElem?_set]
  split
  · rename_i hpi
    subst hpi
    rw [List.getElem?_map, hb]
    simp [hlt]
  · rfl

theorem shapeInv_append (sh : List (GoMap Bool × Option Ptr)) (pk pkb : GoMap Bool)
    (pb : Option Ptr) (best : Nat) (hinv : ShapeInv sh) (hb : sh[best]? = some (pkb, pb))
    (hsub : StrictSubset pkb pk) : ShapeInv (sh ++ [(pk, some best)]) := by
  intro n pk1 q hn
  have keep : ∀ (i : Nat) (x : GoMap Bool × Option Ptr), sh[i]? = some x →
      (sh ++ [(pk, some best)])[i]? = some x := by
    intro i x hx
    have hlt : i < sh.length := by
      rcases Nat.lt_or_ge i sh.length with h | h
      · exact h
      · rw [List.getElem?_eq_none h] at hx; cases hx
    rw [List.getElem?_append_left hlt]
    exact hx
  rcases Nat.lt_or_ge n sh.length with h | h
  · rw [List.getElem?_append_left h] at hn
    obtain ⟨pkq, pq, hq, hs⟩ := hinv n pk1 q hn
    exact ⟨pkq, pq, keep q _ hq, hs⟩
  · rw [List.getElem?_append_right h] at hn
    cases hk : n - sh.length with
    | zero =>
      rw [hk] at hn
      simp only [List.getElem?_cons_zero, Option.some.injEq, Prod.mk.injEq] at hn
      obtain ⟨h1, h2⟩ := hn
      subst h1
      subst h2
      exact ⟨pkb, pb, keep best _ hb, hsub⟩
    | succ k =>
      rw [hk] at hn
      simp at hn

theorem reachable_full_invariant (w : World) (h : Reachable w) :
    (∀ n, n ∈ w.cm.servers → n < w.heap.length) ∧
    ShapeInv (w.heap.map (fun o : ForkServer => (o.Packages, o.Parent))) := by
  induction h with
  | init sizes rootSB rootDir =>
    refine ⟨?_, ?_⟩
    · intro n hn
      simp [initWorld] at hn
      subst hn
      simp [initWorld]
    · intro n pk q hn
      cases n with
      | zero => simp [initWorld, rootServer] at hn
      | succ k => simp [initWorld] at hn
  | step env w sandbox dir request _ hm ih =>
    obtain ⟨ihs, ihinv⟩ := ih
    obtain ⟨best, b, hbest, hb, -, hdelta⟩ := hm
    rcases hres : env.Match w.heap w.cm.servers request with ⟨fs, delta, hit⟩
    rw [hres] at hbest hdelta
    simp only at hbest hdelta
    subst hbest
    by_cases hd : delta = []
    · subst hd
      obtain ⟨h1, h2, -⟩ := Provision_frame_reuse (fun o : ForkServer => (o.Packages, o.Parent))
        stable_shape env w sandbox dir request (some best) hit hres
      have hlen : (Provision env w sandbox dir request).1.heap.length = w.heap.length := by
        have := congrArg List.length h1
        simpa using this
      refine ⟨?_, ?_⟩
      · intro n hn
        rw [h2] at hn
        rw [hlen]
        exact ihs n hn
      · rw [h1]
        exact ihinv
    · obtain ⟨h1, h2, -⟩ :=
        Provision_new_summary env w sandbox dir request best b delta hit hres hd hb
      have h1s := h1 _ (fun o : ForkServer => (o.Packages, o.Parent)) stable_shape
      rw [heap_new_map (fun o : ForkServer => (o.Packages, o.Parent)) w.heap _ b
        { b with Children := wrapInt (b.Children + 1) } best hb rfl] at h1s
      have hlen : (Provision env w sandbox dir request).1.heap.length = w.heap.length + 1 := by
        have := congrArg List.length h1s
        simpa using this
      refine ⟨?_, ?_⟩
      · intro n hn
        rw [h2] at hn
        rw [hlen]
        rcases List.mem_append.mp hn with h | h
        · exact Nat.lt_succ_of_lt (ihs n h)
        · simp at h
          subst h
          exact Nat.lt_succ_self _
      · rw [h1s]
        apply shapeInv_append _ _ b.Packages b.Parent best ihinv
        · rw [List.getElem?_map, hb]
          rfl
        · refine ⟨?_, ?_⟩
          · intro p hp
            show hasPkg (cacheLoop env.lowerTab w.cm.sizes delta
              (copyPackages b.Packages, 0)).1 p
            rw [hasPkg_cacheLoop]
            exact Or.inl hp
          · obtain ⟨p, rest, hpr⟩ := List.exists_cons_of_ne_nil hd
            have hmem : p ∈ delta := by rw [hpr]; exact List.mem_cons_self _ _
            refine ⟨p, ?_, ((hdelta p).mp hmem).2⟩
            show hasPkg (cacheLoop env.lowerTab w.cm.sizes delta
              (copyPackages b.Packages, 0)).1 p
            rw [hasPkg_cacheLoop]
            exact Or.inr hmem

/-- C3. In every forest reachable from the root-only forest by `Provision` calls, every node of
the server list that has a parent has a package set of which the parent's package set is a
strict subset. -/
theorem reachable_parent_strict_subset (w : World) (h : Reachable w) : ParentInvariant w := by
  obtain ⟨hs, hinv⟩ := reachable_full_invariant w h
  intro n hn
  have hlt := hs n hn
  refine ⟨w.heap[n], List.getElem?_eq_getElem hlt, ?_⟩
  intro q hq
  have hsh : (w.heap.map (fun o : ForkServer => (o.Packages, o.Parent)))[n]?
      = some ((w.heap[n]).Packages, some q) := by
    rw [List.getElem?_map, List.getElem?_eq_getElem hlt]
    simp [hq]
  obtain ⟨pkq, pq, hq1, hsub⟩ := hinv n _ q hsh
  rw [List.getElem?_map] at hq1
  cases hpar : w.heap[q]? with
  | none => rw [hpar] at hq1; cases hq1
  | some par =>
    rw [hpar] at hq1
    simp only [Option.map_some', Option.some.injEq, Prod.mk.injEq] at hq1
    refine ⟨par, rfl, ?_⟩
    rw [hq1.1]
    exact hsub

/-- Witness for C3: the forest after scenario 1 is reachable, and its node 1 has the root as
parent and strictly more packages than the root. -/
theorem reachable_parent_strict_subset_witness :
    Reachable (Provision exEnv exWorld exSandbox [] exRequest).1 ∧
    ParentInvariant (Provision exEnv exWorld exSandbox [] exRequest).1 ∧
    (Provision exEnv exWorld exSandbox [] exRequest).1.cm.servers = [0, 1] ∧
    ((Provision exEnv exWorld exSandbox [] exRequest).1.heap[1]?).map (fun o => o.Parent)
      = some (some 0) := by
  have hr : Reachable (Provision exEnv exWorld exSandbox [] exRequest).1 :=
    Reachable.step exEnv exWorld exSandbox [] exRequest
      (Reachable.init exSizes exSandbox "/cache/root".toList)
      (exEnv_contract _ _ _ rfl rfl _)
  exact ⟨hr, reachable_parent_strict_subset _ hr, by decide, by decide⟩

/-! ## C4: the parent's Children counter on the failure paths of newCacheEntry -/

theorem update_getElem? (w : World) (p q : Nat) (f : ForkServer → ForkServer) :
    (w.update p f).heap[q]? = if q = p then (w.heap[q]?).map f else w.heap[q]? := by
  unfold World.update
  split
  · rename_i o ho
    show (w.heap.set p (f o))[q]? = _
    rw [List.getElem?_set]
    by_cases h : p = q
    · subst h
      have hlt : p < w.heap.length := by
        rcases Nat.lt_or_ge p w.heap.length with h | h
        · exact h
        · rw [List.getElem?_eq_none h] at ho; cases ho
      simp [hlt, ho]
    · have h1 : ¬ q = p := fun e => h e.symm
      simp [h, h1]
  · rename_i ho
    by_cases h : q = p
    · subst h
      simp [ho]
    · simp [h]

theorem newCacheEntry_outcome (env : Env) (w : World) (best : Nat) (b : ForkServer)
    (delta : List GoString) (hb : w.heap[best]? = some b) :
    (newCacheEntry env w (some best) delta).2 =
      match env.Create with
      | Except.error err => Outcome.ret (none, some err)
      | Except.ok sb =>
        match env.forkRequest b.SockPath sb.NSPid sb.RootDir delta false with
        | Except.error err => Outcome.ret (none, some err)
        | Except.ok _ =>
          match env.readyWait sb with
          | ReadyWait.fatalf => Outcome.fatal
          | ReadyWait.timeout =>
            Outcome.ret (none, some "handler server failed to initialize after 20s")
          | ReadyWait.ready => Outcome.ret (some w.heap.length, none) := by
  obtain ⟨ws, s, hs⟩ := newCacheEntryStruct_ok env.lowerTab w best b delta hb
  obtain ⟨p, parent, hp, hpar, hlt, -, hheap, -, -, -⟩ :=
    newCacheEntryStruct_inv _ _ _ _ _ _ _ hs
  cases hp
  rw [hb] at hpar
  cases hpar
  have hnew : ws.heap[w.heap.length]? = some (freshNode
      (cacheLoop env.lowerTab w.cm.sizes delta (copyPackages b.Packages, 0)).1 best) := by
    rw [hheap]; exact heap_set_append_new _ _ _ _ hlt
  have hself : ws.heap[best]? = some { b with Children := wrapInt (b.Children + 1) } := by
    rw [hheap]; exact heap_set_append_self _ _ _ _ hlt
  have hne : ¬ best = w.heap.length := Nat.ne_of_lt hlt
  unfold newCacheEntry
  rw [hs]
  simp only [lockNode, hnew]
  cases hc : env.Create with
  | error err => rfl
  | ok sb =>
    simp only [Option.bind, World.emit, unlockForest, update_getElem?, hne, if_false, hself]
    cases hf : env.forkRequest b.SockPath sb.NSPid sb.RootDir delta false with
    | error err =>
      simp only [unlockNode, update_getElem?, if_true, hnew, Option.map_some']
    | ok pid =>
      simp only []
      cases hr : env.readyWait sb <;> rfl

theorem Provision_new_error (env : Env) (w : World) (sandbox : ContainerSandbox)
    (dir : GoString) (pkgs : List GoString) (fs x : Option Ptr) (delta : List GoString)
    (hit : Bool) (err : String)
    (hm : env.Match w.heap w.cm.servers pkgs = (fs, delta, hit)) (hne : delta ≠ [])
    (he : (newCacheEntry env (lockForest w) fs delta).2 = Outcome.ret (x, some err)) :
    (Provision env w sandbox dir pkgs).2 = Outcome.ret ⟨none, false, some err⟩ := by
  have hm1 : env.Match (lockForest w).heap (lockForest w).cm.servers pkgs
      = (fs, delta, hit) := hm
  simp only [Provision]
  rw [hm1]
  dsimp only
  have hlen : delta.length ≠ 0 := by
    intro h; exact hne (List.length_eq_zero.mp h)
  rw [if_pos hlen]
  cases hr : newCacheEntry env (lockForest w) fs delta with
  | mk w2 out =>
    rw [hr] at he
    cases he
    rfl

/-- C4, as the code has it. On each of the three failure paths of new-node creation (the sandbox
factory fails, the fork request to the parent fails, the ready handshake times out) `Provision`
returns the error, and the parent's `Children` counter (a Go `int` below the largest one) is not
decremented: it is one more than before the call. -/
theorem Provision_creation_failure_keeps_increment (env : Env) (w : World)
    (sandbox : ContainerSandbox) (dir : GoString) (pkgs : List GoString) (best : Ptr)
    (b : ForkServer) (delta : List GoString) (hit : Bool)
    (hm : env.Match w.heap w.cm.servers pkgs = (some best, delta, hit)) (hne : delta ≠ [])
    (hb : w.heap[best]? = some b) (hlo : minInt ≤ b.Children) (hhi : b.Children < maxInt)
    (hfail : CreationFails env b.SockPath delta) :
    (∃ err, (Provision env w sandbox dir pkgs).2 = Outcome.ret ⟨none, false, some err⟩) ∧
    ((Provision env w sandbox dir pkgs).1.heap[best]?).map (fun o => o.Children)
      = some (b.Children + 1) := by
  have hwrap : wrapInt (b.Children + 1) = b.Children + 1 := by
    apply wrapInt_of_range
    · unfold minInt at *; omega
    · unfold maxInt at *; omega
  have hlt : best < w.heap.length := by
    rcases Nat.lt_or_ge best w.heap.length with h | h
    · exact h
    · rw [List.getElem?_eq_none h] at hb; cases hb
  refine ⟨?_, ?_⟩
  · have hout := newCacheEntry_outcome env (lockForest w) best b delta hb
    rcases hfail with ⟨err, h1⟩ | ⟨sb, err, h1, h2⟩ | ⟨sb, pid, h1, h2, h3⟩
    · rw [h1] at hout
      exact ⟨err, Provision_new_error env w sandbox dir pkgs _ _ delta hit err hm hne hout⟩
    · rw [h1] at hout
      simp only [h2] at hout
      exact ⟨err, Provision_new_error env w sandbox dir pkgs _ _ delta hit err hm hne hout⟩
    · rw [h1] at hout
      simp only [h2, h3] at hout
      exact ⟨_, Provision_new_error env w sandbox dir pkgs _ _ delta hit _ hm hne hout⟩
  · obtain ⟨h1, -, -⟩ := Provision_new_summary env w sandbox dir pkgs best b delta hit hm hne hb
    have h1c := h1 _ (fun o : ForkServer => o.Children) stable_children
    obtain ⟨o1, ho1, hc1⟩ := heap_map_lookup _ _ _ h1c best _
      (heap_set_append_self w.heap _ _ best hlt)
    rw [ho1]
    simp only [Option.map_some', Option.some.injEq]
    rw [hc1]
    exact hwrap

/-- Witness for C4 as amended: the handshake timeout on the root-only forest. -/
theorem Provision_creation_failure_keeps_increment_witness :
    CreationFails exEnvTimeout (rootServer exSandbox "/cache/root".toList).SockPath exRequest ∧
    (∃ err, (Provision exEnvTimeout exWorld exSandbox [] exRequest).2
      = Outcome.ret ⟨none, false, some err⟩) ∧
    ((Provision exEnvTimeout exWorld exSandbox [] exRequest).1.heap[0]?).map
      (fun o => o.Children) = some (0 + 1) := by
  have hfail : CreationFails exEnvTimeout
      (rootServer exSandbox "/cache/root".toList).SockPath exRequest :=
    Or.inr (Or.inr ⟨exSandbox, "17".toList, rfl, rfl, rfl⟩)
  exact ⟨hfail, Provision_creation_failure_keeps_increment exEnvTimeout exWorld exSandbox []
    exRequest 0 (rootServer exSandbox "/cache/root".toList) exRequest false rfl (by decide) rfl
    (by decide) (by decide) hfail⟩

/-- Counterexample to C4 as stated: the interpreter never writes `ready`. `Provision` returns the
timeout error, and the root's `Children`, 0 before the call, is 1 after it. -/
theorem Provision_timeout_children_not_restored :
    (Provision exEnvTimeout exWorld exSandbox [] exRequest).2
      = Outcome.ret ⟨none, false, some "handler server failed to initialize after 20s"⟩ ∧
    (exWorld.heap[0]?).map (fun o => o.Children) = some 0 ∧
    ((Provision exEnvTimeout exWorld exSandbox [] exRequest).1.heap[0]?).map
      (fun o => o.Children) = some 1 ∧
    ((Provision exEnvTimeout exWorld exSandbox [] exRequest).1.heap[0]?).map
      (fun o => o.Children) ≠ (exWorld.heap[0]?).map (fun o => o.Children) := by
  decide

/-! ## C5: lock release and Kill on the failure paths of newCacheEntry -/

/-- C5, the code at the failing inputs. When the handshake times out, `Provision` returns the
error while the new node (address 1) is still locked and not killed: its lock is never released
and `Kill` is never called. When the sandbox factory fails, `Kill` is called but the lock is still
held. Only the fork-request failure path releases the lock and kills the node. -/
theorem newCacheEntry_failure_cleanup :
    ((Provision exEnvTimeout exWorld exSandbox [] exRequest).2
        = Outcome.ret ⟨none, false, some "handler server failed to initialize after 20s"⟩ ∧
      ((Provision exEnvTimeout exWorld exSandbox [] exRequest).1.heap[1]?).map
        (fun o => (o.Mutex, o.Dead)) = some (true, false) ∧
      Event.unlockNode 1 ∉ (Provision exEnvTimeout exWorld exSandbox [] exRequest).1.trace ∧
      Event.kill 1 ∉ (Provision exEnvTimeout exWorld exSandbox [] exRequest).1.trace) ∧
    ((Provision exEnvCreateFail exWorld exSandbox [] exRequest).2
        = Outcome.ret ⟨none, false, some "no cgroup left"⟩ ∧
      ((Provision exEnvCreateFail exWorld exSandbox [] exRequest).1.heap[1]?).map
        (fun o => (o.Mutex, o.Dead)) = some (true, true) ∧
      Event.unlockNode 1 ∉ (Provision exEnvCreateFail exWorld exSandbox [] exRequest).1.trace) ∧
    ((Provision exEnvForkFail exWorld exSandbox [] exRequest).2
        = Outcome.ret ⟨none, false, some "fork server unreachable"⟩ ∧
      ((Provision exEnvForkFail exWorld exSandbox [] exRequest).1.heap[1]?).map
        (fun o => (o.Mutex, o.Dead)) = some (false, true) ∧
      (Provision exEnvForkFail exWorld exSandbox [] exRequest).1.trace
        = [Event.lockForest, Event.lockNode 1, Event.unlockForest, Event.factoryCreate,
           Event.forkRequest "/cache/root/fs.sock".toList false, Event.unlockNode 1,
           Event.kill 1]) := by
  decide

/-! ## C8: the Size of a new node -/

/-- C8, the code at the failing input. With `numpy` at 100 in the size table and delta [numpy],
the loop of lines 121-124 leaves 100 in the local `size`, which is the sum the claim names, but
the literal of lines 126-132 does not store it: the new node's `Size` is 0, both right after the
structural step and after a successful `Provision`. -/
theorem newCacheEntry_size_not_stored :
    exWorld.cm.sizes.index (ToLower (fun c => c) "numpy".toList) = 100 ∧
    (newCacheEntryStruct (fun c => c) exWorld (some 0) ["numpy".toList]).map
      (fun r => (r.2.2, (r.1.heap[r.2.1]?).map (fun o => o.Size))) = some (100, some 0) ∧
    (Provision exEnv exWorld exSandbox [] ["numpy".toList]).2
      = Outcome.ret ⟨some 1, false, none⟩ ∧
    ((Provision exEnv exWorld exSandbox [] ["numpy".toList]).1.heap[1]?).map
      (fun o => o.Size) = some 0 := by
  decide

/-! ## C10: a matcher that finds no fork server -/

/-- C10, the code at the failing input. When the matcher returns a nil server and an empty
delta, `Provision` dereferences the nil server at `fs.Mutex.Lock()` (line 87), before the
`fs == nil` test of line 89: the call panics, with the forest mutex still held, and returns no
error value. -/
theorem Provision_nil_match_panics :
    exEnvNoMatch.Match exWorld.heap exWorld.cm.servers exRequest = (none, [], false) ∧
    Provision exEnvNoMatch exWorld exSandbox [] exRequest = (lockForest exWorld, Outcome.panic) ∧
    (Provision exEnvNoMatch exWorld exSandbox [] exRequest).1.cm.mutex = true ∧
    (Provision exEnvNoMatch exWorld exSandbox [] exRequest).1.trace = [Event.lockForest] := by
  decide

/-! ## C6 and C7: readPkgSizes -/

theorem Split_cons (sep c : Char) (cs : GoString) :
    Split (c :: cs) sep =
      if c = sep then [] :: Split cs sep
      else
        match Split cs sep with
        | [] => [[c]]
        | f :: fs => (c :: f) :: fs := rfl

theorem Split_ne_nil (s : GoString) (sep : Char) : Split s sep ≠ [] := by
  cases s with
  | nil => simp [Split]
  | cons c cs =>
    unfold Split
    split
    · simp
    · split <;> simp

theorem Split_head (sep : Char) (s f : GoString) (fs : List GoString)
    (h : Split s sep = f :: fs) :
    sep ∉ f ∧ ((fs = [] ∧ s = f) ∨ (∃ rest, s = f ++ sep :: rest ∧ Split rest sep = fs)) := by
  induction s generalizing f fs with
  | nil =>
    simp only [Split, List.cons.injEq] at h
    obtain ⟨h1, h2⟩ := h
    subst h1
    subst h2
    exact ⟨by simp, Or.inl ⟨rfl, rfl⟩⟩
  | cons c cs ih =>
    unfold Split at h
    split at h
    · rename_i hc
      simp only [List.cons.injEq] at h
      obtain ⟨h1, h2⟩ := h
      subst h1
      refine ⟨by simp, Or.inr ⟨cs, ?_, h2⟩⟩
      rw [hc]
      rfl
    · rename_i hc
      split at h
      · rename_i hnil
        exact absurd hnil (Split_ne_nil cs sep)
      · rename_i f1 fs1 hcs
        simp only [List.cons.injEq] at h
        obtain ⟨h1, h2⟩ := h
        subst h1
        subst h2
        obtain ⟨hn, hrest⟩ := ih f1 fs1 hcs
        refine ⟨?_, ?_⟩
        · intro hmem
          rcases List.mem_cons.mp hmem with h | h
          · exact hc h.symm
          · exact hn h
        · rcases hrest with ⟨h1, h2⟩ | ⟨rest, h1, h2⟩
          · exact Or.inl ⟨h1, by rw [h2]⟩
          · exact Or.inr ⟨rest, by rw [h1]; rfl, h2⟩

theorem Split_append (sep : Char) (name rest : GoString) (h : sep ∉ name) :
    Split (name ++ sep :: rest) sep = name :: Split rest sep := by
  induction name with
  | nil => simp [Split]
  | cons c cs ih =>
    have hc : ¬ c = sep := fun e => h (by rw [e]; exact List.mem_cons_self _ _)
    have hcs : sep ∉ cs := fun e => h (List.mem_cons_of_mem _ e)
    show Split (c :: (cs ++ sep :: rest)) sep = _
    rw [Split_cons, if_neg hc, ih hcs]

theorem Split_single (sep : Char) (s : GoString) (h : sep ∉ s) : Split s sep = [s] := by
  induction s with
  | nil => simp [Split]
  | cons c cs ih =>
    have hc : ¬ c = sep := fun e => h (by rw [e]; exact List.mem_cons_self _ _)
    have hcs : sep ∉ cs := fun e => h (List.mem_cons_of_mem _ e)
    rw [Split_cons, if_neg hc, ih hcs]

theorem Split_two_iff (sep : Char) (s : GoString) :
    (Split s sep).length = 2 ↔
      ∃ name num, s = name ++ sep :: num ∧ sep ∉ name ∧ sep ∉ num ∧
        Split s sep = [name, num] := by
  constructor
  · intro h
    cases h1 : Split s sep with
    | nil => exact absurd h1 (Split_ne_nil s sep)
    | cons f fs =>
      obtain ⟨hf, hrest⟩ := Split_head sep s f fs h1
      rcases hrest with ⟨h2, -⟩ | ⟨rest, h2, h3⟩
      · rw [h1, h2] at h
        simp at h
      · cases h4 : Split rest sep with
        | nil => exact absurd h4 (Split_ne_nil rest sep)
        | cons g gs =>
          rw [h4] at h3
          subst h3
          rw [h1] at h
          have hgs : gs = [] := by
            cases gs with
            | nil => rfl
            | cons x xs => simp at h
          subst hgs
          obtain ⟨hg, hrest2⟩ := Split_head sep rest g [] h4
          rcases hrest2 with ⟨-, h5⟩ | ⟨rest2, -, h6⟩
          · subst h5
            exact ⟨f, rest, h2, hf, hg, rfl⟩
          · exact absurd h6 (Split_ne_nil rest2 sep)
  · rintro ⟨name, num, -, -, -, h⟩
    rw [h]
    rfl

theorem foldl_digits_ge (ds : List Char) (n : Nat) :
    n ≤ ds.foldl (fun n c => n * 10 + (c.toNat - '0'.toNat)) n := by
  induction ds generalizing n with
  | nil => exact Nat.le_refl _
  | cons c cs ih =>
    simp only [List.foldl_cons]
    have := ih (n * 10 + (c.toNat - '0'.toNat))
    omega

theorem parseUint_ok_iff (ds : List Char) (n v : Nat) :
    parseUint ds n = Except.ok v ↔
      (∀ c, c ∈ ds → isDecimalDigit c) ∧
      v = ds.foldl (fun n c => n * 10 + (c.toNat - '0'.toNat)) n ∧ (ds ≠ [] → v < 2 ^ 64) := by
  induction ds generalizing n with
  | nil =>
    simp only [parseUint, Except.ok.injEq, List.not_mem_nil, false_implies, implies_true,
      List.foldl_nil, true_and, ne_eq, not_true_eq_false]
    constructor
    · intro h; exact ⟨h.symm, trivial⟩
    · intro h; exact h.1.symm
  | cons c cs ih =>
    unfold parseUint
    by_cases hd : isDecimalDigit c
    · rw [if_pos hd]
      by_cases hbig : n * 10 + (c.toNat - '0'.toNat) ≥ 2 ^ 64
      · rw [if_pos hbig]
        constructor
        · intro h; cases h
        · rintro ⟨-, h2, h3⟩
          have h4 := h3 (by simp)
          simp only [List.foldl_cons] at h2
          have h5 := foldl_digits_ge cs (n * 10 + (c.toNat - '0'.toNat))
          omega
      · rw [if_neg hbig, ih]
        simp only [List.foldl_cons, List.mem_cons]
        constructor
        · rintro ⟨h1, h2, h3⟩
          refine ⟨?_, h2, ?_⟩
          · intro x hx
            rcases hx with hx | hx
            · rw [hx]; exact hd
            · exact h1 x hx
          · intro _
            by_cases hcs : cs = []
            · subst hcs
              simp only [List.foldl_nil] at h2
              omega
            · exact h3 hcs
        · rintro ⟨h1, h2, h3⟩
          exact ⟨fun x hx => h1 x (Or.inr hx), h2, fun _ => h3 (by simp)⟩
    · rw [if_neg hd]
      constructor
      · intro h; cases h
      · rintro ⟨h1, -, -⟩
        exact absurd (h1 c (List.mem_cons_self _ _)) hd

/-- The range test of `ParseInt` on the unsigned value `un`. -/
theorem Atoi_minus (cs : GoString) :
    Atoi ('-' :: cs) =
      if cs = [] then Except.error AtoiError.malformed
      else
        match parseUint cs 0 with
        | Except.error e => Except.error e
        | Except.ok un =>
          if un > 2 ^ 63 then Except.error AtoiError.range else Except.ok (-(un : Int)) := by
  unfold Atoi
  simp only [decide_True, true_or, if_true, Bool.true_eq_false, false_and, if_false, true_and]

theorem Atoi_plus (cs : GoString) :
    Atoi ('+' :: cs) =
      if cs = [] then Except.error AtoiError.malformed
      else
        match parseUint cs 0 with
        | Except.error e => Except.error e
        | Except.ok un =>
          if un ≥ 2 ^ 63 then Except.error AtoiError.range else Except.ok (un : Int) := by
  unfold Atoi
  have h1 : ¬ ('+' = '-') := by decide
  simp only [h1, decide_False, or_true, false_or, if_true, true_and, Bool.false_eq_true,
    false_and, if_false]

theorem Atoi_other (c : Char) (cs : GoString) (h1 : ¬ c = '-') (h2 : ¬ c = '+') :
    Atoi (c :: cs) =
      match parseUint (c :: cs) 0 with
      | Except.error e => Except.error e
      | Except.ok un =>
        if un ≥ 2 ^ 63 then Except.error AtoiError.range else Except.ok (un : Int) := by
  unfold Atoi
  simp only [h1, h2, decide_False, or_self, if_false, true_and, Bool.false_eq_true,
    false_and, reduceCtorEq]

theorem not_digit_minus : ¬ isDecimalDigit '-' := by decide

theorem not_digit_plus : ¬ isDecimalDigit '+' := by decide

theorem not_digit_colon : ¬ isDecimalDigit ':' := by decide

theorem Atoi_ok_iff (num : GoString) : (∃ v, Atoi num = Except.ok v) ↔ IsGoInt num := by
  cases num with
  | nil =>
    constructor
    · rintro ⟨v, h⟩
      simp [Atoi] at h
    · rintro ⟨ds, hne, -, h | h | h⟩
      · exact absurd h.1.symm hne
      · exact absurd h.1 (by simp)
      · exact absurd h.1 (by simp)
  | cons c cs =>
    by_cases hminus : c = '-'
    · subst hminus
      rw [Atoi_minus]
      constructor
      · rintro ⟨v, h⟩
        by_cases hcs : cs = []
        · rw [if_pos hcs] at h; cases h
        · rw [if_neg hcs] at h
          cases hp : parseUint cs 0 with
          | error e => rw [hp] at h; cases h
          | ok un =>
            rw [hp] at h
            simp only at h
            by_cases hr : un > 2 ^ 63
            · rw [if_pos hr] at h; cases h
            · obtain ⟨hd, hv, -⟩ := (parseUint_ok_iff cs 0 un).mp hp
              refine ⟨cs, hcs, hd, Or.inr (Or.inr ⟨rfl, ?_⟩)⟩
              have hval : decimalValue cs = un := hv.symm
              rw [hval]
              unfold minInt
              omega
      · rintro ⟨ds, hne, hd, h | h | h⟩
        · exfalso
          apply not_digit_minus
          apply hd
          rw [← h.1]
          exact List.mem_cons_self _ _
        · have := (List.cons.inj h.1).1
          exact absurd this (by decide)
        · obtain ⟨h1, h2⟩ := h
          have hcs : cs = ds := (List.cons.inj h1).2
          subst hcs
          have hval : decimalValue cs ≤ 2 ^ 63 := by
            unfold minInt at h2
            omega
          have hp : parseUint cs 0 = Except.ok (decimalValue cs) :=
            (parseUint_ok_iff cs 0 _).mpr ⟨hd, rfl, fun _ => by omega⟩
          rw [if_neg hne, hp]
          simp only
          rw [if_neg (by omega)]
          exact ⟨_, rfl⟩
    · by_cases hplus : c = '+'
      · subst hplus
        rw [Atoi_plus]
        constructor
        · rintro ⟨v, h⟩
          by_cases hcs : cs = []
          · rw [if_pos hcs] at h; cases h
          · rw [if_neg hcs] at h
            cases hp : parseUint cs 0 with
            | error e => rw [hp] at h; cases h
            | ok un =>
              rw [hp] at h
              simp only at h
              by_cases hr : un ≥ 2 ^ 63
              · rw [if_pos hr] at h; cases h
              · obtain ⟨hd, hv, -⟩ := (parseUint_ok_iff cs 0 un).mp hp
                refine ⟨cs, hcs, hd, Or.inr (Or.inl ⟨rfl, ?_⟩)⟩
                have hval : decimalValue cs = un := hv.symm
                rw [hval]
                unfold maxInt
                omega
        · rintro ⟨ds, hne, hd, h | h | h⟩
          · exfalso
            apply not_digit_plus
            apply hd
            rw [← h.1]
            exact List.mem_cons_self _ _
          · obtain ⟨h1, h2⟩ := h
            have hcs : cs = ds := (List.cons.inj h1).2
            subst hcs
            have hval : decimalValue cs < 2 ^ 63 := by
              unfold maxInt at h2
              omega
            have hp : parseUint cs 0 = Except.ok (decimalValue cs) :=
              (parseUint_ok_iff cs 0 _).mpr ⟨hd, rfl, fun _ => by omega⟩
            rw [if_neg hne, hp]
            simp only
            rw [if_neg (by omega)]
            exact ⟨_, rfl⟩
          · have := (List.cons.inj h.1).1
            exact absurd this (by decide)
      · rw [Atoi_other c cs hminus hplus]
        constructor
        · rintro ⟨v, h⟩
          cases hp : parseUint (c :: cs) 0 with
          | error e => rw [hp] at h; cases h
          | ok un =>
            rw [hp] at h
            simp only at h
            by_cases hr : un ≥ 2 ^ 63
            · rw [if_pos hr] at h; cases h
            · obtain ⟨hd, hv, -⟩ := (parseUint_ok_iff (c :: cs) 0 un).mp hp
              refine ⟨c :: cs, by simp, hd, Or.inl ⟨rfl, ?_⟩⟩
              have hval : decimalValue (c :: cs) = un := hv.symm
              rw [hval]
              unfold maxInt
              omega
        · rintro ⟨ds, hne, hd, h | h | h⟩
          · obtain ⟨h1, h2⟩ := h
            subst h1
            have hval : decimalValue (c :: cs) < 2 ^ 63 := by
              unfold maxInt at h2
              omega
            have hp : parseUint (c :: cs) 0 = Except.ok (decimalValue (c :: cs)) :=
              (parseUint_ok_iff (c :: cs) 0 _).mpr ⟨hd, rfl, fun _ => by omega⟩
            rw [hp]
            simp only
            rw [if_neg (by omega)]
            exact ⟨_, rfl⟩
          · exact absurd (List.cons.inj h.1).1 hplus
          · exact absurd (List.cons.inj h.1).1 hminus

theorem IsGoInt_no_colon (num : GoString) (h : IsGoInt num) : ':' ∉ num := by
  obtain ⟨ds, -, hd, h | h | h⟩ := h
  · rw [h.1]
    intro hm
    exact not_digit_colon (hd _ hm)
  · rw [h.1]
    intro hm
    rcases List.mem_cons.mp hm with h1 | h1
    · exact absurd h1 (by decide)
    · exact not_digit_colon (hd _ h1)
  · rw [h.1]
    intro hm
    rcases List.mem_cons.mp hm with h1 | h1
    · exact absurd h1 (by decide)
    · exact not_digit_colon (hd _ h1)

theorem accepted_iff (l : GoString) :
    ((Split l ':').length = 2 ∧ ∃ v, Atoi ((Split l ':').getD 1 []) = Except.ok v)
      ↔ AcceptedLine l := by
  constructor
  · rintro ⟨h1, h2⟩
    obtain ⟨name, num, hl, hn, -, hs⟩ := (Split_two_iff ':' l).mp h1
    rw [hs] at h2
    exact ⟨name, num, hl, hn, (Atoi_ok_iff num).mp h2⟩
  · rintro ⟨name, num, hl, hn, hi⟩
    have hs : Split l ':' = [name, num] := by
      rw [hl, Split_append ':' name num hn, Split_single ':' num (IsGoInt_no_colon num hi)]
    rw [hs]
    exact ⟨rfl, (Atoi_ok_iff num).mpr hi⟩

theorem readPkgSizesLoop_cons (tab : Char → Char) (l : GoString) (rest : List ScanStep)
    (sizes : GoMap Int) :
    readPkgSizesLoop tab ({ Text := l, Err := none } :: rest) sizes =
      if (Split l ':').length ≠ 2 then Except.error SizesError.malformedFile
      else
        match Atoi ((Split l ':').getD 1 []) with
        | Except.error e => Except.error (SizesError.atoi e ((Split l ':').getD 1 []))
        | Except.ok size =>
          readPkgSizesLoop tab rest
            (sizes.set (ToLower tab ((Split l ':').getD 1 [])) (float64OfInt size)) :=
  rfl

theorem readPkgSizesLoop_error_iff (tab : Char → Char) (lines : List GoString)
    (sizes : GoMap Int) :
    (∃ e, readPkgSizesLoop tab (lines.map (fun l => { Text := l, Err := none })) sizes
        = Except.error e) ↔ ∃ l, l ∈ lines ∧ ¬ AcceptedLine l := by
  induction lines generalizing sizes with
  | nil =>
    constructor
    · rintro ⟨e, h⟩
      cases h
    · rintro ⟨l, hl, -⟩
      cases hl
  | cons l rest ih =>
    rw [List.map_cons, readPkgSizesLoop_cons]
    by_cases hlen : (Split l ':').length ≠ 2
    · rw [if_pos hlen]
      constructor
      · intro _
        exact ⟨l, List.mem_cons_self _ _, fun ha => hlen ((accepted_iff l).mpr ha).1⟩
      · intro _
        exact ⟨_, rfl⟩
    · rw [if_neg hlen]
      have hlen2 : (Split l ':').length = 2 := not_not.mp hlen
      cases ha : Atoi ((Split l ':').getD 1 []) with
      | error e =>
        simp only
        constructor
        · intro _
          refine ⟨l, List.mem_cons_self _ _, fun hacc => ?_⟩
          obtain ⟨v, hv⟩ := ((accepted_iff l).mpr hacc).2
          rw [ha] at hv
          cases hv
        · intro _
          exact ⟨_, rfl⟩
      | ok size =>
        simp only
        rw [ih]
        have hacc : AcceptedLine l := (accepted_iff l).mp ⟨hlen2, size, ha⟩
        constructor
        · rintro ⟨x, hx, hn⟩
          exact ⟨x, List.mem_cons_of_mem _ hx, hn⟩
        · rintro ⟨x, hx, hn⟩
          rcases List.mem_cons.mp hx with h | h
          · subst h
            exact absurd hacc hn
          · exact ⟨x, h, hn⟩

theorem scanLinesFrom_eq (data line f : GoString) (fs : List GoString)
    (h : Split data '\n' = f :: fs) :
    scanLinesFrom data line = tokensOf ((line ++ f) :: fs) := by
  induction data generalizing line f fs with
  | nil =>
    simp only [Split, List.cons.injEq] at h
    obtain ⟨h1, h2⟩ := h
    subst h1
    subst h2
    simp [scanLinesFrom, tokensOf]
  | cons c cs ih =>
    rw [Split_cons] at h
    by_cases hc : c = '\n'
    · rw [if_pos hc] at h
      simp only [List.cons.injEq] at h
      obtain ⟨h1, h2⟩ := h
      subst h1
      cases hcs : Split cs '\n' with
      | nil => exact absurd hcs (Split_ne_nil cs '\n')
      | cons g gs =>
        rw [hcs] at h2
        subst h2
        simp only [scanLinesFrom, if_pos hc, tokensOf, List.append_nil]
        rw [ih [] g gs hcs]
        rfl
    · rw [if_neg hc] at h
      cases hcs : Split cs '\n' with
      | nil => exact absurd hcs (Split_ne_nil cs '\n')
      | cons g gs =>
        rw [hcs] at h
        simp only [List.cons.injEq] at h
        obtain ⟨h1, h2⟩ := h
        subst h1
        subst h2
        simp only [scanLinesFrom, if_neg hc]
        rw [ih (line ++ [c]) g gs hcs]
        simp

theorem tokensOf_eq (fs : List GoString) :
    tokensOf fs =
      ((if fs.getLast? = some [] then fs.dropLast else fs).takeWhile
        (fun l => decide (byteLen l < MaxScanTokenSize))).map dropCR := by
  induction fs with
  | nil => simp [tokensOf]
  | cons f rest ih =>
    cases rest with
    | nil =>
      by_cases hf : f = []
      · subst hf
        simp [tokensOf]
      · by_cases hl : byteLen f ≥ MaxScanTokenSize
        · have hl2 : ¬ byteLen f < MaxScanTokenSize := by omega
          simp [tokensOf, hf, hl, hl2]
        · have hl2 : byteLen f < MaxScanTokenSize := by omega
          simp [tokensOf, hf, hl, hl2]
    | cons g gs =>
      have hlast : (f :: g :: gs).getLast? = (g :: gs).getLast? := List.getLast?_cons_cons
      have hdrop : (f :: g :: gs).dropLast = f :: (g :: gs).dropLast := rfl
      by_cases hl : byteLen f ≥ MaxScanTokenSize
      · have hl2 : ¬ byteLen f < MaxScanTokenSize := by omega
        simp only [tokensOf, if_pos hl, hlast, hdrop]
        split <;> simp [List.takeWhile, hl2]
      · have hl2 : byteLen f < MaxScanTokenSize := by omega
        simp only [tokensOf, if_neg hl, hlast, hdrop]
        rw [ih]
        split <;> simp [List.takeWhile, hl2]

/-- The scanner delivers the lines of the file before the first over-long one, each without a
carriage return at its end. -/
theorem scanLines_eq (content : GoString) : scanLines content = deliveredLines content := by
  cases hs : Split content '\n' with
  | nil => exact absurd hs (Split_ne_nil content '\n')
  | cons f fs =>
    have h1 := scanLinesFrom_eq content [] f fs hs
    simp only [List.nil_append] at h1
    unfold scanLines deliveredLines fileLines
    rw [h1, tokensOf_eq, hs]

theorem byteLen_replicate_x (n : Nat) : byteLen (List.replicate n 'x') = n := by
  induction n with
  | zero => rfl
  | succ k ih =>
    have h1 : byteLen (List.replicate (k + 1) 'x') = Char.utf8Size 'x' + byteLen (List.replicate k 'x') := by
      simp [byteLen, List.replicate_succ]
    have h2 : Char.utf8Size 'x' = 1 := by decide
    rw [h1, ih, h2]
    omega

theorem fileLines_three (long : GoString) (hx : '\n' ∉ long) :
    fileLines ("numpy:100".toList ++ '\n' :: (long ++ '\n' :: "bad".toList))
      = ["numpy:100".toList, long, "bad".toList] := by
  have h1 : Split ("numpy:100".toList ++ '\n' :: (long ++ '\n' :: "bad".toList)) '\n'
      = ["numpy:100".toList, long, "bad".toList] := by
    rw [Split_append '\n' _ _ (by decide), Split_append '\n' _ _ hx,
      Split_single '\n' _ (by decide)]
  have hlast : ["numpy:100".toList, long, "bad".toList].getLast? ≠ some [] := by
    simp
  unfold fileLines
  rw [h1]
  simp only [if_neg hlast]

theorem deliveredLines_three (long : GoString) (hx : '\n' ∉ long)
    (hl : MaxScanTokenSize ≤ byteLen long) :
    deliveredLines ("numpy:100".toList ++ '\n' :: (long ++ '\n' :: "bad".toList))
      = ["numpy:100".toList] := by
  have hlong : ¬ byteLen long < MaxScanTokenSize := by omega
  have hshort : byteLen "numpy:100".toList < MaxScanTokenSize := by decide
  have hcr : dropCR "numpy:100".toList = "numpy:100".toList := by decide
  unfold deliveredLines
  rw [fileLines_three long hx]
  simp only [List.takeWhile, hshort, hlong, decide_True, decide_False, List.map_cons,
    List.map_nil, hcr]

theorem exLongFile_line (hx : '\n' ∈ List.replicate 65536 'x') : False := by
  have := List.eq_of_mem_replicate hx
  exact absurd this (by decide)

theorem exLongFile_long : MaxScanTokenSize ≤ byteLen (List.replicate 65536 'x') := by
  rw [byteLen_replicate_x]
  decide

/-- C6, the code at the failing input. For the file with the lines `numpy:100` and `SciPy:250`
`readPkgSizes` succeeds, but line 265 stores each size under `split[1]`, the size field itself:
the table has the keys `100` and `250`, and neither `numpy` nor `scipy`. -/
theorem readPkgSizes_keys_are_size_fields :
    readPkgSizes (fun c => c) (readable "numpy:100\nSciPy:250\n".toList)
      = Except.ok ⟨[("100".toList, 100), ("250".toList, 250)]⟩ ∧
    (⟨[("100".toList, 100), ("250".toList, 250)]⟩ : GoMap Int).get? "numpy".toList = none ∧
    (⟨[("100".toList, 100), ("250".toList, 250)]⟩ : GoMap Int).get? "scipy".toList = none ∧
    (⟨[("100".toList, 100), ("250".toList, 250)]⟩ : GoMap Int).index
      (ToLower (fun c => c) "numpy".toList) = 0 := by
  decide

/-- C7 as amended. For every file that reads without error, the lines that reach `readPkgSizes`
are the lines of the file before the first line of 65536 bytes or more, each without a carriage
return at its end, and `readPkgSizes` returns an error exactly when one of these lines, empty
lines included, is not a colon-free name (possibly empty), one colon, and an optionally signed
decimal integer that fits in `int`. -/
theorem readPkgSizes_error_iff (tab : Char → Char) (content : GoString) :
    scanLines content = deliveredLines content ∧
    ((∃ e, readPkgSizes tab (readable content) = Except.error e)
      ↔ ∃ l, l ∈ deliveredLines content ∧ ¬ AcceptedLine l) := by
  refine ⟨scanLines_eq content, ?_⟩
  rw [← scanLines_eq content]
  exact readPkgSizesLoop_error_iff tab (scanLines content) GoMap.empty

/-- Witness for C7 as amended: a file whose second line has 65536 bytes and whose third line is
malformed. Only the first line reaches `readPkgSizes`, which returns the table of that line and
no error. -/
theorem readPkgSizes_error_iff_witness :
    deliveredLines exLongFile = ["numpy:100".toList] ∧
    fileLines exLongFile = ["numpy:100".toList, List.replicate 65536 'x', "bad".toList] ∧
    readPkgSizes (fun c => c) (readable exLongFile) = Except.ok ⟨[("100".toList, 100)]⟩ ∧
    ¬ ∃ e, readPkgSizes (fun c => c) (readable exLongFile) = Except.error e := by
  have hd : deliveredLines exLongFile = ["numpy:100".toList] :=
    deliveredLines_three _ exLongFile_line exLongFile_long
  have hrun : readPkgSizes (fun c => c) (readable exLongFile)
      = Except.ok ⟨[("100".toList, 100)]⟩ := by
    unfold readable
    rw [scanLines_eq, hd]
    decide
  refine ⟨hd, fileLines_three _ exLongFile_line, hrun, ?_⟩
  intro h
  obtain ⟨l, hl, hn⟩ := (readPkgSizes_error_iff (fun c => c) exLongFile).2.mp h
  rw [hd] at hl
  have hl1 : l = "numpy:100".toList := by simpa using hl
  subst hl1
  exact hn ((accepted_iff _).mp ⟨by decide, 100, by decide⟩)

/-- Counterexample to C7 as stated. The line `numpy:-5` is not of the form name:integer with a
non-negative integer, yet the file is read without error and -5 is stored; and a file whose
non-empty lines all have that form is rejected because of an empty line. -/
theorem readPkgSizes_negative_accepted_empty_rejected :
    (fileLines "numpy:-5\n".toList = ["numpy:-5".toList] ∧
      specLineForm "numpy:-5".toList = false ∧
      readPkgSizes (fun c => c) (readable "numpy:-5\n".toList)
        = Except.ok ⟨[("-5".toList, -5)]⟩) ∧
    (fileLines "a:1\n\nb:2\n".toList = ["a:1".toList, "".toList, "b:2".toList] ∧
      (∀ l, l ∈ fileLines "a:1\n\nb:2\n".toList → l ≠ [] → specLineForm l = true) ∧
      readPkgSizes (fun c => c) (readable "a:1\n\nb:2\n".toList)
        = Except.error SizesError.malformedFile) := by
  decide


/-! ## C9: the path options in Config.Defaults -/

theorem cleanBacktrack_last (c : Char) (o : List Char) (h : o.getLast? = some '/') :
    (cleanBacktrack 1 c o).getLast? = some '/' := by
  induction o generalizing c with
  | nil => simp at h
  | cons d rest ih =>
    unfold cleanBacktrack
    split
    · rename_i hc
      cases rest with
      | nil => simp at hc
      | cons e rest2 =>
        rw [List.getLast?_cons_cons] at h
        exact ih d h
    · exact h

theorem cleanLoop_last (fuel : Nat) (path out : List Char) (h : out.getLast? = some '/') :
    (cleanLoop true fuel path 1 out).getLast? = some '/' := by
  induction fuel generalizing path out with
  | zero => exact h
  | succ n ih =>
    unfold cleanLoop
    cases path with
    | nil => exact h
    | cons c t =>
      simp only
      split
      · exact ih _ _ h
      · split
        · exact ih _ _ h
        · split
          · split
            · rename_i hlen
              cases out with
              | nil => exact ih _ _ h
              | cons c0 o =>
                simp only
                apply ih
                apply cleanBacktrack_last
                cases o with
                | nil => simp at hlen
                | cons d rest =>
                  rw [List.getLast?_cons_cons] at h
                  exact h
            · split
              · rename_i hr
                cases hr
              · exact ih _ _ h
          · apply ih
            rw [List.getLast?_append]
            split
            · cases out with
              | nil => simp at h
              | cons d rest =>
                rw [List.getLast?_cons_cons, h]
                rfl
            · simp [h]

/-- The fuel of `cleanLoop` does not matter once it covers the input that is left: the loop
has then finished before the fuel runs out. -/
theorem cleanLoop_fuel (rooted : Bool) (f1 f2 : Nat) (path : List Char) (dotdot : Nat)
    (out : List Char) (h1 : path.length ≤ f1) (h2 : path.length ≤ f2) :
    cleanLoop rooted f1 path dotdot out = cleanLoop rooted f2 path dotdot out := by
  induction f1 generalizing f2 path dotdot out with
  | zero =>
    have hp : path = [] := List.length_eq_zero.mp (Nat.le_zero.mp h1)
    subst hp
    cases f2 <;> simp [cleanLoop]
  | succ n ih =>
    cases f2 with
    | zero =>
      have hp : path = [] := List.length_eq_zero.mp (Nat.le_zero.mp h2)
      subst hp
      simp [cleanLoop]
    | succ m =>
      cases path with
      | nil => simp [cleanLoop]
      | cons c t =>
        have ht1 : t.length ≤ n := by simpa using h1
        have ht2 : t.length ≤ m := by simpa using h2
        have htl : t.tail.length ≤ t.length := by simp
        simp only [cleanLoop]
        split
        · exact ih _ _ _ _ ht1 ht2
        · split
          · exact ih _ _ _ _ ht1 ht2
          · split
            · split
              · cases out with
                | nil => exact ih _ _ _ _ (by omega) (by omega)
                | cons c0 o => exact ih _ _ _ _ (by omega) (by omega)
              · split
                · exact ih _ _ _ _ (by omega) (by omega)
                · exact ih _ _ _ _ (by omega) (by omega)
            · rename_i hc _ _
              have hd : (c :: t).dropWhile (fun x => decide (x ≠ '/'))
                  = t.dropWhile (fun x => decide (x ≠ '/')) := by
                rw [List.dropWhile_cons]
                simp [hc]
              have hl : ((c :: t).dropWhile (fun x => decide (x ≠ '/'))).length ≤ t.length := by
                rw [hd]
                exact (List.dropWhile_sublist _).length_le
              exact ih _ _ _ _ (by omega) (by omega)

theorem Clean_IsAbs (path : GoString) (h : IsAbs path) : IsAbs (Clean path) := by
  unfold IsAbs at h
  cases path with
  | nil => simp at h
  | cons c t =>
    unfold Clean
    rw [if_neg (by simp)]
    simp only [h, decide_True, if_true, List.tail_cons]
    have hl := cleanLoop_last (c :: t).length t ['/'] rfl
    split
    · rename_i h0
      have : cleanLoop true (c :: t).length t 1 ['/'] = [] := List.length_eq_zero.mp h0
      rw [this] at hl
      simp at hl
    · unfold IsAbs
      rw [List.head?_reverse]
      exact hl

theorem Join_IsAbs (wd path : GoString) (h : IsAbs wd) : IsAbs (Join [wd, path]) := by
  unfold IsAbs at h
  cases wd with
  | nil => simp at h
  | cons c t =>
    simp only [List.head?_cons, Option.some.injEq] at h
    subst h
    have hj : Join ['/' :: t, path] = Clean (List.intercalate ['/'] ['/' :: t, path]) := by
      simp [Join, List.dropWhile]
    rw [hj]
    apply Clean_IsAbs
    simp [IsAbs, List.intercalate, List.intersperse]

theorem Abs_IsAbs (env : PathEnv) (hwd : ∀ wd, env.Getwd = Except.ok wd → IsAbs wd)
    (path r : GoString) (h : Abs env path = Except.ok r) : IsAbs r := by
  unfold Abs at h
  split at h
  · rename_i ha
    cases h
    exact Clean_IsAbs path ha
  · cases hg : env.Getwd with
    | error e => rw [hg] at h; cases h
    | ok wd =>
      rw [hg] at h
      cases h
      exact Join_IsAbs wd path (hwd wd hg)

theorem PathOpt.get_set (o j : PathOpt) (c : Config) (v : GoString) :
    o.get (j.set c v) = if o = j then v else o.get c := by
  cases o <;> cases j <;> rfl

theorem PathOpt.sameConds_set (j : PathOpt) (c : Config) (v : GoString) :
    sameConds c (j.set c v) := by
  cases j <;> exact ⟨rfl, rfl, rfl⟩

theorem sameConds_refl (c : Config) : sameConds c c := ⟨rfl, rfl, rfl⟩

theorem sameConds_trans (a b c : Config) (h1 : sameConds a b) (h2 : sameConds b c) :
    sameConds a c :=
  ⟨h2.1.trans h1.1, h2.2.1.trans h1.2.1, h2.2.2.trans h1.2.2⟩

theorem checkPath_spec (env : PathEnv) (j : PathOpt) (missing name : String) :
    StepSpec env (checkPath env j.get j.set missing name) (fun o _ => o = j) := by
  intro c c1 h
  unfold checkPath at h
  split at h
  · cases h
  · split at h
    · rename_i hrel
      split at h
      · cases h
      · rename_i hbase
        split at h
        · cases h
        · rename_i p hp
          simp only [Prod.mk.injEq, and_true] at h
          subst h
          refine ⟨PathOpt.sameConds_set j c p, ?_⟩
          intro o
          refine ⟨?_, ?_⟩
          · intro ho
            subst ho
            rw [PathOpt.get_set, if_pos rfl]
            exact Or.inr ⟨hrel, hbase, hp⟩
          · intro ho
            rw [PathOpt.get_set, if_neg ho]
    · rename_i habs
      simp only [Prod.mk.injEq, and_true] at h
      subst h
      refine ⟨sameConds_refl c, ?_⟩
      intro o
      refine ⟨?_, fun _ => rfl⟩
      intro ho
      subst ho
      exact Or.inl ⟨not_not.mp habs, rfl⟩

theorem andThen_none (r : Config × Option String) (k : Config → Config × Option String)
    (c1 : Config) (h : andThen r k = (c1, none)) : r.2 = none ∧ k r.1 = (c1, none) := by
  unfold andThen at h
  split at h
  · rename_i e he
    rw [h] at he
    cases he
  · rename_i he
    exact ⟨he, h⟩

theorem StepSpec_andThen (env : PathEnv) (k1 k2 : Config → Config × Option String)
    (S1 S2 : PathOpt → Config → Prop) (h1 : StepSpec env k1 S1) (h2 : StepSpec env k2 S2)
    (hc : CondsOnly S2) (hdis : ∀ o c, S1 o c → ¬ S2 o c) :
    StepSpec env (fun c => andThen (k1 c) k2) (fun o c => S1 o c ∨ S2 o c) := by
  intro c c2 h
  obtain ⟨hr, hk⟩ := andThen_none _ _ _ h
  have hk1 : k1 c = ((k1 c).1, none) := Prod.ext rfl hr
  obtain ⟨hs1, hf1⟩ := h1 c _ hk1
  obtain ⟨hs2, hf2⟩ := h2 _ c2 hk
  refine ⟨sameConds_trans _ _ _ hs1 hs2, ?_⟩
  intro o
  refine ⟨?_, ?_⟩
  · intro ho
    rcases ho with ho | ho
    · have hn2 : ¬ S2 o (k1 c).1 := fun hx => hdis o c ho ((hc o c _ hs1).mpr hx)
      rw [(hf2 o).2 hn2]
      exact (hf1 o).1 ho
    · have hn1 : ¬ S1 o c := fun hx => hdis o c hx ho
      have hres := (hf2 o).1 ((hc o c _ hs1).mp ho)
      rw [(hf1 o).2 hn1, hs1.1] at hres
      exact hres
  · intro ho
    have hn1 : ¬ S1 o c := fun hx => ho (Or.inl hx)
    have hn2 : ¬ S2 o (k1 c).1 := fun hx => ho (Or.inr ((hc o c _ hs1).mpr hx))
    rw [(hf2 o).2 hn2, (hf1 o).2 hn1]

theorem StepSpec_guard (env : PathEnv) (k : Config → Config × Option String)
    (S : PathOpt → Config → Prop) (G : Config → Prop) [DecidablePred G]
    (h : StepSpec env k S) :
    StepSpec env (fun c => if G c then k c else (c, none)) (fun o c => G c ∧ S o c) := by
  intro c c1 hk
  by_cases hg : G c
  · simp only [if_pos hg] at hk
    obtain ⟨hs, hf⟩ := h c c1 hk
    refine ⟨hs, fun o => ⟨fun ho => (hf o).1 ho.2, fun ho => (hf o).2 (fun hx => ho ⟨hg, hx⟩)⟩⟩
  · simp only [if_neg hg, Prod.mk.injEq, and_true] at hk
    subst hk
    exact ⟨sameConds_refl c, fun o => ⟨fun ho => absurd ho.1 hg, fun _ => rfl⟩⟩

theorem StepSpec_congr (env : PathEnv) (k : Config → Config × Option String)
    (S T : PathOpt → Config → Prop) (h : StepSpec env k S) (hst : ∀ o c, S o c ↔ T o c) :
    StepSpec env k T := by
  intro c c1 hk
  obtain ⟨hs, hf⟩ := h c c1 hk
  exact ⟨hs, fun o => ⟨fun ho => (hf o).1 ((hst o c).mpr ho),
    fun ho => (hf o).2 (fun hx => ho ((hst o c).mp hx))⟩⟩

theorem defaultsBasics_frame {α : Type} (g : Config → α)
    (h1 : ∀ (c : Config) (v : GoString), g { c with Cluster_name := v } = g c)
    (h2 : ∀ (c : Config) (v : GoString), g { c with Worker_port := v } = g c) (c : Config) :
    g (defaultsBasics c).1 = g c := by
  have e1 : g (defaultClusterName c) = g c := by
    unfold defaultClusterName
    split
    · exact h1 c _
    · rfl
  have e2 : g (defaultWorkerPort (defaultClusterName c)) = g (defaultClusterName c) := by
    unfold defaultWorkerPort
    split
    · exact h2 _ _
    · rfl
  have e3 : (defaultsBasics c).1 = defaultWorkerPort (defaultClusterName c) := by
    unfold defaultsBasics
    simp only
    split <;> rfl
  rw [e3, e2, e1]

theorem defaultsBasics_spec (env : PathEnv) :
    StepSpec env defaultsBasics (fun _ _ => False) := by
  intro c c1 h
  have hc1 : c1 = (defaultsBasics c).1 := by rw [h]
  subst hc1
  refine ⟨⟨?_, ?_, ?_⟩, ?_⟩
  · exact defaultsBasics_frame (fun c => c.path) (fun _ _ => rfl) (fun _ _ => rfl) c
  · exact defaultsBasics_frame (fun c => c.Sandbox) (fun _ _ => rfl) (fun _ _ => rfl) c
  · exact defaultsBasics_frame (fun c => c.Import_cache_size) (fun _ _ => rfl) (fun _ _ => rfl) c
  · intro o
    refine ⟨fun hf => absurd hf id, fun _ => ?_⟩
    exact defaultsBasics_frame (fun c => o.get c) (fun _ _ => by cases o <;> rfl)
      (fun _ _ => by cases o <;> rfl) c

theorem condsOnly_const (j : PathOpt) : CondsOnly (fun o _ => o = j) :=
  fun _ _ _ _ => Iff.rfl

theorem defaultsCacheBase_spec (env : PathEnv) :
    StepSpec env (defaultsCacheBase env)
      (fun o c => c.Import_cache_size ≠ 0 ∧ o = PathOpt.OLContainer_cache_base) :=
  StepSpec_guard env _ _ (fun c => c.Import_cache_size ≠ 0)
    (checkPath_spec env PathOpt.OLContainer_cache_base _ _)

theorem defaultsImportCache_spec (env : PathEnv) :
    StepSpec env (defaultsImportCache env)
      (fun o c => c.Import_cache_size ≠ 0 ∧ o = PathOpt.Import_cache_dir) :=
  StepSpec_guard env _ _ (fun c => c.Import_cache_size ≠ 0)
    (checkPath_spec env PathOpt.Import_cache_dir _ _)

theorem defaultsOlcontainer_spec (env : PathEnv) :
    StepSpec env (defaultsOlcontainer env)
      (fun o c => c.Sandbox = "olcontainer".toList ∧
        ((o = PathOpt.OLContainer_init_path ∨ o = PathOpt.OLContainer_handler_base) ∨
          (c.Import_cache_size ≠ 0 ∧ o = PathOpt.OLContainer_cache_base))) := by
  have h1 : StepSpec env (fun c => andThen (defaultsInitPath env c) (defaultsHandlerBase env))
      (fun o _ => o = PathOpt.OLContainer_init_path ∨ o = PathOpt.OLContainer_handler_base) :=
    StepSpec_andThen env _ _ _ _ (checkPath_spec env PathOpt.OLContainer_init_path _ _)
      (checkPath_spec env PathOpt.OLContainer_handler_base _ _)
      (condsOnly_const _) (by intro o c h1 h2; rw [h1] at h2; cases h2)
  have h2 := StepSpec_andThen env _ _ _ _ h1 (defaultsCacheBase_spec env)
    (by
      intro o c c1 h
      show (c.Import_cache_size ≠ 0 ∧ _) ↔ (c1.Import_cache_size ≠ 0 ∧ _)
      rw [h.2.2])
    (by
      intro o c h1 h2
      rcases h1 with h1 | h1 <;> (rw [h1] at h2; cases h2.2))
  exact StepSpec_guard env _ _ (fun c => c.Sandbox = "olcontainer".toList) h2

theorem defaultsChecks_spec (env : PathEnv) : StepSpec env (defaultsChecks env) isChecked := by
  have h1 := StepSpec_andThen env _ _ _ _ (defaultsBasics_spec env)
    (checkPath_spec env PathOpt.Reg_dir "must specify local registry directory" "Reg_dir")
    (condsOnly_const _) (by intro o c h; exact absurd h id)
  have h2 := StepSpec_andThen env _ _ _ _ h1
    (checkPath_spec env PathOpt.Worker_dir "must specify local worker directory" "Worker_dir")
    (condsOnly_const _)
    (by
      intro o c h1 h2
      rcases h1 with h1 | h1
      · exact h1
      · rw [h1] at h2; cases h2)
  have h3 := StepSpec_andThen env _ _ _ _ h2
    (checkPath_spec env PathOpt.Pkgs_dir "must specify packages directory" "Pkgs_dir")
    (condsOnly_const _)
    (by
      intro o c h1 h2
      rcases h1 with (h1 | h1) | h1
      · exact h1
      · rw [h1] at h2; cases h2
      · rw [h1] at h2; cases h2)
  have h4 := StepSpec_andThen env _ _ _ _ h3 (defaultsOlcontainer_spec env)
    (by
      intro o c c1 h
      show (c.Sandbox = _ ∧ (_ ∨ (c.Import_cache_size ≠ 0 ∧ _)))
        ↔ (c1.Sandbox = _ ∧ (_ ∨ (c1.Import_cache_size ≠ 0 ∧ _)))
      rw [h.2.1, h.2.2])
    (by
      intro o c h1 h2
      rcases h1 with ((h1 | h1) | h1) | h1
      · exact h1
      · rw [h1] at h2
        rcases h2.2 with (h | h) | h
        · cases h
        · cases h
        · cases h.2
      · rw [h1] at h2
        rcases h2.2 with (h | h) | h
        · cases h
        · cases h
        · cases h.2
      · rw [h1] at h2
        rcases h2.2 with (h | h) | h
        · cases h
        · cases h
        · cases h.2)
  have h5 := StepSpec_andThen env _ _ _ _ h4 (defaultsImportCache_spec env)
    (by
      intro o c c1 h
      show (c.Import_cache_size ≠ 0 ∧ _) ↔ (c1.Import_cache_size ≠ 0 ∧ _)
      rw [h.2.2])
    (by
      intro o c h1 h2
      rcases h1 with (((h1 | h1) | h1) | h1) | h1
      · exact h1
      · rw [h1] at h2; cases h2.2
      · rw [h1] at h2; cases h2.2
      · rw [h1] at h2; cases h2.2
      · rcases h1.2 with (h | h) | h
        · rw [h] at h2; cases h2.2
        · rw [h] at h2; cases h2.2
        · rw [h.2] at h2; cases h2.2)
  refine StepSpec_congr env _ _ _ h5 ?_
  intro o c
  cases o <;> simp [isChecked]

theorem Defaults_err (env : PathEnv) (c : Config) (timing : Bool) :
    (Defaults env c timing).err = (defaultsChecks env c).2 ∧
    (Defaults env c timing).c = (defaultsChecks env c).1 := by
  unfold Defaults
  split
  · rename_i c1 e h
    rw [h]
    exact ⟨rfl, rfl⟩
  · rename_i c1 h
    rw [h]
    exact ⟨rfl, rfl⟩

/-- C9 as amended. `OLContainer_cache_base` is a checked option only when the sandbox is
olcontainer and `Import_cache_size` is not zero (the other options as the claim lists them). For a
configuration with an empty base path, `Defaults` returns an error whenever a checked option is
non-empty and relative. Whenever `Defaults` returns no error, every checked option is absolute
afterwards: an absolute one is unchanged, and a relative one (the base path is then not empty) has
been replaced by `filepath.Abs` of the option joined onto the directory of the base path. The
working directory reported by the system is taken to be absolute. -/
theorem Defaults_checked_paths (env : PathEnv) (c : Config) (timing : Bool)
    (hwd : ∀ wd, env.Getwd = Except.ok wd → IsAbs wd) :
    (c.path = [] → (∃ o, isChecked o c ∧ o.get c ≠ [] ∧ ¬ IsAbs (o.get c)) →
      (Defaults env c timing).err ≠ none) ∧
    ((Defaults env c timing).err = none → ∀ o, isChecked o c →
      IsAbs (o.get (Defaults env c timing).c) ∧
      (IsAbs (o.get c) → o.get (Defaults env c timing).c = o.get c) ∧
      (¬ IsAbs (o.get c) → c.path ≠ [] ∧
        Abs env (Join [Dir c.path, o.get c]) = Except.ok (o.get (Defaults env c timing).c))) := by
  obtain ⟨he, hc⟩ := Defaults_err env c timing
  have key : (Defaults env c timing).err = none → ∀ o, isChecked o c →
      Resolved env c.path (o.get c) (o.get (Defaults env c timing).c) := by
    intro hnone o ho
    rw [he] at hnone
    have hk : defaultsChecks env c = ((defaultsChecks env c).1, none) := Prod.ext rfl hnone
    rw [hc]
    exact ((defaultsChecks_spec env c _ hk).2 o).1 ho
  refine ⟨?_, ?_⟩
  · rintro hpath ⟨o, ho, -, hrel⟩ hnone
    rcases key hnone o ho with ⟨h1, -⟩ | ⟨-, h2, -⟩
    · exact hrel h1
    · exact h2 hpath
  · intro hnone o ho
    rcases key hnone o ho with ⟨h1, h2⟩ | ⟨h1, h2, h3⟩
    · refine ⟨by rw [h2]; exact h1, fun _ => h2, fun hn => absurd h1 hn⟩
    · exact ⟨Abs_IsAbs env hwd _ _ h3, fun ha => absurd ha h1, fun _ => ⟨h2, h3⟩⟩

/-- Witness for C9 as amended: the example configuration loaded from `/etc/ol/config.json`.
`Defaults` succeeds, and for instance `Pkgs_dir`, given as `../packages`, has become
`/etc/packages`. -/
theorem Defaults_checked_paths_witness :
    (∀ wd, exPathEnv.Getwd = Except.ok wd → IsAbs wd) ∧
    (Defaults exPathEnv exConfig false).err = none ∧
    (∀ o, isChecked o exConfig → IsAbs (o.get (Defaults exPathEnv exConfig false).c)) ∧
    (Defaults exPathEnv exConfig false).c.Pkgs_dir = "/etc/packages".toList := by
  have hwd : ∀ wd, exPathEnv.Getwd = Except.ok wd → IsAbs wd := by
    intro wd h
    cases h
    decide
  have hok : (Defaults exPathEnv exConfig false).err = none := by decide
  exact ⟨hwd, hok,
    fun o ho => ((Defaults_checked_paths exPathEnv exConfig false hwd).2 hok o ho).1,
    by decide⟩

/-- Counterexample to C9 as stated. A configuration with an empty base path, sandbox
olcontainer and the import cache off, whose `OLContainer_cache_base` is the relative path
`base/cache`: the option is one the claim counts as checked, yet `Defaults` returns no error and
leaves it relative. -/
theorem Defaults_cache_base_unchecked :
    exConfigNoCache.path = [] ∧
    specChecked PathOpt.OLContainer_cache_base exConfigNoCache ∧
    PathOpt.OLContainer_cache_base.get exConfigNoCache ≠ [] ∧
    ¬ IsAbs (PathOpt.OLContainer_cache_base.get exConfigNoCache) ∧
    (Defaults exPathEnv exConfigNoCache false).err = none ∧
    ¬ IsAbs (PathOpt.OLContainer_cache_base.get (Defaults exPathEnv exConfigNoCache false).c) := by
  decide

/-! ## C11: the forest mutex is never held across sandbox or interpreter I/O -/

theorem lockNode_trace (w w1 : World) (fs : Option Ptr) (h : lockNode w fs = some w1) :
    ∃ p, w1.trace = w.trace ++ [Event.lockNode p] ∧ w1.cm = w.cm := by
  unfold lockNode at h
  split at h
  · cases h
  · rename_i p
    split at h
    · cases h
    · cases h
      refine ⟨p, ?_, ?_⟩
      · show (w.update p _).trace ++ [Event.lockNode p] = _
        rw [update_trace]
      · show (w.update p _).cm = _
        rw [update_cm]

theorem unlockNode_trace (w w1 : World) (fs : Option Ptr) (h : unlockNode w fs = some w1) :
    ∃ p, w1.trace = w.trace ++ [Event.unlockNode p] ∧ w1.cm = w.cm := by
  unfold unlockNode at h
  split at h
  · cases h
  · rename_i p
    split at h
    · cases h
    · cases h
      refine ⟨p, ?_, ?_⟩
      · show (w.update p _).trace ++ [Event.unlockNode p] = _
        rw [update_trace]
      · show (w.update p _).cm = _
        rw [update_cm]

theorem killNode_trace (w : World) (p : Nat) :
    (killNode w p).trace = w.trace ++ [Event.kill p] ∧ (killNode w p).cm = w.cm := by
  refine ⟨?_, ?_⟩
  · show (w.update p _).trace ++ [Event.kill p] = _
    rw [update_trace]
  · show (w.update p _).cm = _
    rw [update_cm]

theorem noForest_nil : NoForest [] := ⟨by simp, by simp⟩

theorem noForest_append (a b : List Event) (ha : NoForest a) (hb : NoForest b) :
    NoForest (a ++ b) := by
  refine ⟨?_, ?_⟩
  · intro h
    rcases List.mem_append.mp h with h | h
    · exact ha.1 h
    · exact hb.1 h
  · intro h
    rcases List.mem_append.mp h with h | h
    · exact ha.2 h
    · exact hb.2 h

theorem unlockNode_getD_trace (w : World) (fs : Option Ptr) :
    ∃ evs, ((unlockNode w fs).getD w).trace = w.trace ++ evs ∧ NoForest evs ∧
      ((unlockNode w fs).getD w).cm = w.cm := by
  cases h : unlockNode w fs with
  | none => exact ⟨[], by simp, noForest_nil, rfl⟩
  | some w1 =>
    obtain ⟨p, h1, h2⟩ := unlockNode_trace w w1 fs h
    exact ⟨[Event.unlockNode p], h1, ⟨by simp, by simp⟩, h2⟩

theorem provisionServe_trace (env : Env) (w : World) (fs : Option Ptr) (hit : Bool)
    (sandbox : ContainerSandbox) :
    ∃ evs, (provisionServe env w fs hit sandbox).1.trace = w.trace ++ evs ∧ NoForest evs ∧
      (provisionServe env w fs hit sandbox).1.cm = w.cm := by
  unfold provisionServe
  cases hb : fs.bind (fun p => w.heap[p]?) with
  | none => exact ⟨[], by simp, noForest_nil, rfl⟩
  | some o =>
    dsimp only
    obtain ⟨e1, ht1, hn1, hc1⟩ : ∃ e1,
        (match fs with
          | some p => (w.update p ForkServer.Hit).emit (Event.hit p)
          | none => w).trace = w.trace ++ e1 ∧ NoForest e1 ∧
        (match fs with
          | some p => (w.update p ForkServer.Hit).emit (Event.hit p)
          | none => w).cm = w.cm := by
      cases fs with
      | none => exact ⟨[], by simp, noForest_nil, rfl⟩
      | some p =>
        refine ⟨[Event.hit p], ?_, ⟨by simp, by simp⟩, ?_⟩
        · show (w.update p _).trace ++ [Event.hit p] = _
          rw [update_trace]
        · show (w.update p _).cm = _
          rw [update_cm]
    cases hf : env.forkRequest o.SockPath sandbox.NSPid sandbox.RootDir [] true with
    | error err =>
      dsimp only
      obtain ⟨e2, ht2, hn2, hc2⟩ := unlockNode_getD_trace
        ((match fs with
          | some p => (w.update p ForkServer.Hit).emit (Event.hit p)
          | none => w).emit (Event.forkRequest o.SockPath true)) fs
      refine ⟨e1 ++ [Event.forkRequest o.SockPath true] ++ e2, ?_, ?_, ?_⟩
      · rw [ht2]
        show ((match fs with
          | some p => (w.update p ForkServer.Hit).emit (Event.hit p)
          | none => w).trace ++ [Event.forkRequest o.SockPath true]) ++ e2 = _
        rw [ht1]
        simp
      · exact noForest_append _ _ (noForest_append _ _ hn1 ⟨by simp, by simp⟩) hn2
      · rw [hc2]
        exact hc1
    | ok pid =>
      dsimp only
      obtain ⟨e2, ht2, hn2, hc2⟩ := unlockNode_getD_trace
        (((match fs with
          | some p => (w.update p ForkServer.Hit).emit (Event.hit p)
          | none => w).emit (Event.forkRequest o.SockPath true)).emit Event.cgroupEnter) fs
      have key : ∃ evs,
          ((unlockNode (((match fs with
            | some p => (w.update p ForkServer.Hit).emit (Event.hit p)
            | none => w).emit (Event.forkRequest o.SockPath true)).emit Event.cgroupEnter)
              fs).getD (((match fs with
            | some p => (w.update p ForkServer.Hit).emit (Event.hit p)
            | none => w).emit (Event.forkRequest o.SockPath true)).emit
              Event.cgroupEnter)).trace = w.trace ++ evs ∧ NoForest evs ∧
          ((unlockNode (((match fs with
            | some p => (w.update p ForkServer.Hit).emit (Event.hit p)
            | none => w).emit (Event.forkRequest o.SockPath true)).emit Event.cgroupEnter)
              fs).getD (((match fs with
            | some p => (w.update p ForkServer.Hit).emit (Event.hit p)
            | none => w).emit (Event.forkRequest o.SockPath true)).emit
              Event.cgroupEnter)).cm = w.cm := by
        refine ⟨e1 ++ [Event.forkRequest o.SockPath true, Event.cgroupEnter] ++ e2, ?_, ?_, ?_⟩
        · rw [ht2]
          show (((match fs with
            | some p => (w.update p ForkServer.Hit).emit (Event.hit p)
            | none => w).trace ++ [Event.forkRequest o.SockPath true]) ++
              [Event.cgroupEnter]) ++ e2 = _
          rw [ht1]
          simp
        · exact noForest_append _ _ (noForest_append _ _ hn1 ⟨by simp, by simp⟩) hn2
        · rw [hc2]
          exact hc1
      cases hcg : env.CGroupEnter sandbox pid with
      | some err => exact key
      | none => exact key

theorem emit_trace (w : World) (e : Event) : (w.emit e).trace = w.trace ++ [e] := rfl

theorem emit_cm (w : World) (e : Event) : (w.emit e).cm = w.cm := rfl

theorem unlockForest_trace (w : World) :
    (unlockForest w).trace = w.trace ++ [Event.unlockForest] := rfl

theorem unlockForest_mutex (w : World) : (unlockForest w).cm.mutex = false := rfl

theorem lockForest_trace (w : World) :
    (lockForest w).trace = w.trace ++ [Event.lockForest] := rfl

theorem lockForest_mutex (w : World) : (lockForest w).cm.mutex = true := rfl

theorem killNode_trace_eq (w : World) (p : Nat) :
    (killNode w p).trace = w.trace ++ [Event.kill p] := (killNode_trace w p).1

theorem killNode_cm_eq (w : World) (p : Nat) : (killNode w p).cm = w.cm := (killNode_trace w p).2

/-- The events of `newCacheEntry`: either it panics before doing anything observable, or it
locks the new node, releases the forest mutex, and from then on leaves the forest mutex alone. -/
theorem newCacheEntry_trace (env : Env) (w : World) (fs : Option Ptr)
    (toCache : List GoString) :
    ((newCacheEntry env w fs toCache).2 = Outcome.panic ∧
      (newCacheEntry env w fs toCache).1.trace = w.trace ∧
      (newCacheEntry env w fs toCache).1.cm.mutex = w.cm.mutex) ∨
    (∃ p evs, (newCacheEntry env w fs toCache).1.trace
        = w.trace ++ Event.lockNode p :: Event.unlockForest :: evs ∧
      NoForest evs ∧ (newCacheEntry env w fs toCache).1.cm.mutex = false) := by
  unfold newCacheEntry
  cases hs : newCacheEntryStruct env.lowerTab w fs toCache with
  | none => exact Or.inl ⟨rfl, rfl, rfl⟩
  | some r =>
    obtain ⟨w1, newFs, sz⟩ := r
    obtain ⟨_, _, -, -, -, -, -, -, hmx, htr⟩ := newCacheEntryStruct_inv _ _ _ _ _ _ _ hs
    dsimp only
    cases hl : lockNode w1 (some newFs) with
    | none => exact Or.inl ⟨rfl, htr, hmx⟩
    | some w2 =>
      obtain ⟨p, ht2, hc2⟩ := lockNode_trace _ _ _ hl
      dsimp only
      refine Or.inr ⟨p, ?_⟩
      cases hc : env.Create with
      | error err =>
        refine ⟨[Event.factoryCreate, Event.kill newFs], ?_, ⟨by simp, by simp⟩, ?_⟩
        · simp only [killNode_trace_eq, emit_trace, unlockForest_trace, ht2, htr,
            List.append_assoc, List.singleton_append, List.cons_append, List.nil_append]
        · simp only [killNode_cm_eq, emit_cm, unlockForest_mutex]
      | ok sandbox =>
        dsimp only
        cases hpar : fs.bind (fun q => ((unlockForest w2).emit Event.factoryCreate).heap[q]?) with
        | none =>
          refine ⟨[Event.factoryCreate], ?_, ⟨by simp, by simp⟩, ?_⟩
          · simp only [emit_trace, unlockForest_trace, ht2, htr,
              List.append_assoc, List.singleton_append, List.cons_append, List.nil_append]
          · simp only [emit_cm, unlockForest_mutex]
        | some parent =>
          dsimp only
          cases hf : env.forkRequest parent.SockPath sandbox.NSPid sandbox.RootDir toCache
              false with
          | error err =>
            dsimp only
            cases hu : unlockNode (((unlockForest w2).emit Event.factoryCreate).emit
                (Event.forkRequest parent.SockPath false)) (some newFs) with
            | none =>
              refine ⟨[Event.factoryCreate, Event.forkRequest parent.SockPath false], ?_,
                ⟨by simp, by simp⟩, ?_⟩
              · simp only [emit_trace, unlockForest_trace, ht2, htr,
                  List.append_assoc, List.singleton_append, List.cons_append, List.nil_append]
              · simp only [emit_cm, unlockForest_mutex]
            | some w6 =>
              obtain ⟨q, ht6, hc6⟩ := unlockNode_trace _ _ _ hu
              refine ⟨[Event.factoryCreate, Event.forkRequest parent.SockPath false,
                Event.unlockNode q, Event.kill newFs], ?_, ⟨by simp, by simp⟩, ?_⟩
              · simp only [killNode_trace_eq, ht6, emit_trace, unlockForest_trace, ht2, htr,
                  List.append_assoc, List.singleton_append, List.cons_append, List.nil_append]
              · simp only [killNode_cm_eq, hc6, emit_cm, unlockForest_mutex]
          | ok pid =>
            dsimp only
            have hshape : ∀ x : World,
                x.trace = (((unlockForest w2).emit Event.factoryCreate).emit
                  (Event.forkRequest parent.SockPath false)).trace ++ [Event.readyWait] →
                x.cm.mutex = false →
                ∃ evs, x.trace = w.trace ++ Event.lockNode p :: Event.unlockForest :: evs ∧
                  NoForest evs ∧ x.cm.mutex = false := by
              intro x hx hm
              refine ⟨[Event.factoryCreate, Event.forkRequest parent.SockPath false,
                Event.readyWait], ?_, ⟨by simp, by simp⟩, hm⟩
              rw [hx]
              simp only [emit_trace, unlockForest_trace, ht2, htr,
                List.append_assoc, List.singleton_append, List.cons_append, List.nil_append]
            cases hr : env.readyWait sandbox with
            | fatalf => exact hshape _ rfl rfl
            | timeout => exact hshape _ rfl rfl
            | ready =>
              dsimp only
              apply hshape
              · rw [update_trace]
                rfl
              · rw [update_cm]
                rfl

/-- The events of one `Provision` call: the forest mutex is locked; then either the call panics
at once, or a node is locked, the forest mutex is released, and nothing that follows locks or
unlocks the forest mutex. -/
theorem Provision_trace_shape (env : Env) (w : World) (sandbox : ContainerSandbox)
    (dir : GoString) (pkgs : List GoString) :
    ((Provision env w sandbox dir pkgs).2 = Outcome.panic ∧
      (Provision env w sandbox dir pkgs).1.trace = w.trace ++ [Event.lockForest] ∧
      (Provision env w sandbox dir pkgs).1.cm.mutex = true) ∨
    (∃ p evs, (Provision env w sandbox dir pkgs).1.trace
        = w.trace ++ Event.lockForest :: Event.lockNode p :: Event.unlockForest :: evs ∧
      NoForest evs ∧ (Provision env w sandbox dir pkgs).1.cm.mutex = false) := by
  simp only [Provision]
  split
  · -- the new-entry branch
    rcases newCacheEntry_trace env (lockForest w)
        (env.Match (lockForest w).heap (lockForest w).cm.servers pkgs).1
        (env.Match (lockForest w).heap (lockForest w).cm.servers pkgs).2.1 with
      ⟨h1, h2, h3⟩ | ⟨p, evs, h1, h2, h3⟩
    · cases hr : newCacheEntry env (lockForest w)
          (env.Match (lockForest w).heap (lockForest w).cm.servers pkgs).1
          (env.Match (lockForest w).heap (lockForest w).cm.servers pkgs).2.1 with
      | mk w2 out =>
        rw [hr] at h1 h2 h3
        simp only at h1 h2 h3
        subst h1
        exact Or.inl ⟨rfl, h2, h3⟩
    · right
      cases hr : newCacheEntry env (lockForest w)
          (env.Match (lockForest w).heap (lockForest w).cm.servers pkgs).1
          (env.Match (lockForest w).heap (lockForest w).cm.servers pkgs).2.1 with
      | mk w2 out =>
        rw [hr] at h1 h3
        simp only at h1 h3
        have hbase : w2.trace
            = w.trace ++ Event.lockForest :: Event.lockNode p :: Event.unlockForest :: evs := by
          rw [h1, lockForest_trace]
          simp
        cases out with
        | panic => exact ⟨p, evs, hbase, h2, h3⟩
        | fatal => exact ⟨p, evs, hbase, h2, h3⟩
        | ret v =>
          obtain ⟨newFs, err⟩ := v
          cases err with
          | some e => exact ⟨p, evs, hbase, h2, h3⟩
          | none =>
            dsimp only
            obtain ⟨e2, ht, hn, hc⟩ := provisionServe_trace env w2 newFs
              (env.Match (lockForest w).heap (lockForest w).cm.servers pkgs).2.2 sandbox
            refine ⟨p, evs ++ e2, ?_, noForest_append _ _ h2 hn, ?_⟩
            · rw [ht, hbase]
              simp
            · rw [hc]
              exact h3
  · -- the empty-delta branch
    cases hl : lockNode (lockForest w)
        (env.Match (lockForest w).heap (lockForest w).cm.servers pkgs).1 with
    | none => exact Or.inl ⟨rfl, rfl, rfl⟩
    | some w2 =>
      right
      obtain ⟨p, ht2, hc2⟩ := lockNode_trace _ _ _ hl
      have hbase : (unlockForest w2).trace
          = w.trace ++ Event.lockForest :: Event.lockNode p :: Event.unlockForest :: [] := by
        rw [unlockForest_trace, ht2, lockForest_trace]
        simp
      dsimp only
      split
      · cases hu : unlockNode (unlockForest w2)
            (env.Match (lockForest w).heap (lockForest w).cm.servers pkgs).1 with
        | none => exact ⟨p, [], hbase, noForest_nil, rfl⟩
        | some w4 =>
          obtain ⟨q, ht4, hc4⟩ := unlockNode_trace _ _ _ hu
          refine ⟨p, [Event.unlockNode q], ?_, ⟨by simp, by simp⟩, ?_⟩
          · show w4.trace = _
            rw [ht4, hbase]
            simp
          · show w4.cm.mutex = false
            rw [hc4]
            rfl
      · obtain ⟨e2, ht, hn, hc⟩ := provisionServe_trace env (unlockForest w2)
          (env.Match (lockForest w).heap (lockForest w).cm.servers pkgs).1
          (env.Match (lockForest w).heap (lockForest w).cm.servers pkgs).2.2 sandbox
        refine ⟨p, e2, ?_, hn, ?_⟩
        · rw [ht, hbase]
          simp
        · rw [hc]
          rfl

theorem forestHeldAfter_noForest (held : Bool) (evs : List Event) (h : NoForest evs) :
    forestHeldAfter held evs = held := by
  induction evs with
  | nil => rfl
  | cons e es ih =>
    have hes : NoForest es :=
      ⟨fun hm => h.1 (List.mem_cons_of_mem _ hm), fun hm => h.2 (List.mem_cons_of_mem _ hm)⟩
    have h1 : e ≠ Event.lockForest := fun e1 => h.1 (by rw [e1]; exact List.mem_cons_self _ _)
    have h2 : e ≠ Event.unlockForest := fun e1 => h.2 (by rw [e1]; exact List.mem_cons_self _ _)
    cases e with
    | lockForest => exact absurd rfl h1
    | unlockForest => exact absurd rfl h2
    | lockNode p => exact ih hes
    | unlockNode p => exact ih hes
    | hit p => exact ih hes
    | kill p => exact ih hes
    | factoryCreate => exact ih hes
    | forkRequest s l => exact ih hes
    | readyWait => exact ih hes
    | cgroupEnter => exact ih hes

theorem noForest_before (pre post : List Event) (e : Event) (evs : List Event)
    (h : NoForest evs) (heq : evs = pre ++ e :: post) : NoForest pre := by
  subst heq
  exact ⟨fun hm => h.1 (List.mem_append_left _ hm), fun hm => h.2 (List.mem_append_left _ hm)⟩

/-- C11. In every execution of `Provision` the events it adds to the trace begin with the lock
of the forest mutex, which is never locked again. Every event that talks to a sandbox or an
interpreter (factory `Create`, `forkRequest`, the wait on the ready pipe, `CGroupEnter`) comes
after the release of the forest mutex, at a moment when the mutex is not held. Whenever
`Provision` returns, with a result or with an error, the forest mutex has been released and is
not held. -/
theorem Provision_forest_lock_discipline (env : Env) (w : World) (sandbox : ContainerSandbox)
    (dir : GoString) (pkgs : List GoString) :
    ∃ rest, (Provision env w sandbox dir pkgs).1.trace = w.trace ++ Event.lockForest :: rest ∧
      Event.lockForest ∉ rest ∧
      (∀ pre e post, Event.lockForest :: rest = pre ++ e :: post → isSandboxIO e = true →
        Event.unlockForest ∈ pre ∧ forestHeldAfter false pre = false) ∧
      (∀ r, (Provision env w sandbox dir pkgs).2 = Outcome.ret r →
        Event.unlockForest ∈ rest ∧
        forestHeldAfter false (Event.lockForest :: rest) = false ∧
        (Provision env w sandbox dir pkgs).1.cm.mutex = false) := by
  rcases Provision_trace_shape env w sandbox dir pkgs with ⟨h1, h2, -⟩ | ⟨p, evs, h1, h2, h3⟩
  · refine ⟨[], h2, by simp, ?_, ?_⟩
    · intro pre e post heq hio
      cases pre with
      | nil =>
        simp only [List.nil_append, List.cons.injEq] at heq
        rw [← heq.1] at hio
        cases hio
      | cons a pre1 =>
        simp only [List.cons_append, List.cons.injEq] at heq
        have := heq.2
        cases pre1 <;> simp at this
    · intro r hr
      rw [h1] at hr
      cases hr
  · refine ⟨Event.lockNode p :: Event.unlockForest :: evs, h1, ?_, ?_, ?_⟩
    · intro hm
      rcases List.mem_cons.mp hm with h | h
      · cases h
      · rcases List.mem_cons.mp h with h | h
        · cases h
        · exact h2.1 h
    · intro pre e post heq hio
      cases pre with
      | nil =>
        simp only [List.nil_append, List.cons.injEq] at heq
        rw [← heq.1] at hio
        cases hio
      | cons a pre1 =>
        simp only [List.cons_append, List.cons.injEq] at heq
        obtain ⟨ha, heq1⟩ := heq
        subst ha
        cases pre1 with
        | nil =>
          simp only [List.nil_append, List.cons.injEq] at heq1
          rw [← heq1.1] at hio
          cases hio
        | cons b pre2 =>
          simp only [List.cons_append, List.cons.injEq] at heq1
          obtain ⟨hb, heq2⟩ := heq1
          subst hb
          cases pre2 with
          | nil =>
            simp only [List.nil_append, List.cons.injEq] at heq2
            rw [← heq2.1] at hio
            cases hio
          | cons c pre3 =>
            simp only [List.cons_append, List.cons.injEq] at heq2
            obtain ⟨hc, heq3⟩ := heq2
            subst hc
            refine ⟨by simp, ?_⟩
            show forestHeldAfter false pre3 = false
            exact forestHeldAfter_noForest false pre3 (noForest_before pre3 post e evs h2 heq3)
    · intro r _
      refine ⟨by simp, ?_, h3⟩
      show forestHeldAfter false evs = false
      exact forestHeldAfter_noForest false evs h2

/-- Witness for C11: scenario 1 of the spec. The events of the call, in order: the forest mutex
is locked, the new node is locked, the forest mutex is released, and only then come the factory's
`Create`, the two fork requests, the wait on the ready pipe and `CGroupEnter`. -/
theorem Provision_forest_lock_discipline_witness :
    (Provision exEnv exWorld exSandbox [] exRequest).1.trace
      = [Event.lockForest, Event.lockNode 1, Event.unlockForest, Event.factoryCreate,
         Event.forkRequest "/cache/root/fs.sock".toList false, Event.readyWait, Event.hit 1,
         Event.forkRequest "/sb/host/fs.sock".toList true, Event.cgroupEnter,
         Event.unlockNode 1] ∧
    (Provision exEnv exWorld exSandbox [] exRequest).2 = Outcome.ret ⟨some 1, false, none⟩ ∧
    ∃ rest, (Provision exEnv exWorld exSandbox [] exRequest).1.trace
        = exWorld.trace ++ Event.lockForest :: rest ∧
      Event.lockForest ∉ rest ∧ Event.unlockForest ∈ rest ∧
      (Provision exEnv exWorld exSandbox [] exRequest).1.cm.mutex = false := by
  have hrun : (Provision exEnv exWorld exSandbox [] exRequest).2
      = Outcome.ret ⟨some 1, false, none⟩ := by decide
  obtain ⟨rest, h1, h2, -, h4⟩ :=
    Provision_forest_lock_discipline exEnv exWorld exSandbox [] exRequest
  exact ⟨by decide, hrun, rest, h1, h2, (h4 _ hrun).1, (h4 _ hrun).2.2⟩

end OpenLambda
